import Mathlib

/-!
Verification development for the kanby terminal kanban board
(src/kanby/main.py and src/kanby/async_save.py).

The development shallow-embeds, in Lean:

* the JSON data model (projects, columns, tasks) as an inductive `JVal`
  with Python dicts represented as association lists in insertion order
  (Python dict keys are unique; lemmas that quantify over parsed inputs
  carry a no-duplicate-keys hypothesis where this matters);
* `load_data` from main.py (migration heuristic, legacy migration,
  normalization of ids and priorities, metadata handling), with
  `uuid.uuid4()[:8]` id generation modelled by a counter-indexed supply
  of 8-character strings and uncaught Python exceptions
  (TypeError/AttributeError on unexpected shapes) modelled as
  `Except.error`;
* the filesystem effects of `AsyncSaveManager._save_data_to_file`
  (atomic write: temp file, fsync, backup rotation, rename) and of the
  plain `save_data` in main.py, as traces of filesystem states, one
  state per observable instant, where the filesystem maps path names
  to file contents and an in-progress write is visible as a prefix of
  the final bytes;
* the reference/aliasing structure relevant to `SaveRequest.__init__`
  (which copies the workspace dict with the shallow `dict.copy()`):
  a store of column-list objects and project objects addressed by
  numeric references, so that sharing between the caller's workspace
  and the queued request is explicit;
* the drain of the save queue (`_save_worker` / `_process_remaining_saves`
  process requests strictly in FIFO order, one at a time) as a sequential
  fold of successful atomic writes;
* the project-management operations of `manage_projects_modal`
  (create / rename / delete).
-/

/-! ## JSON values and Python dict operations on association lists -/

/-- A JSON value as produced by `json.load`.  Objects keep key order
(Python dicts preserve insertion order). -/
inductive JVal where
  | jnull : JVal
  | jbool (b : Bool) : JVal
  | jnum (n : Int) : JVal
  | jstr (s : String) : JVal
  | jarr (xs : List JVal) : JVal
  | jobj (kvs : List (String × JVal)) : JVal

/-- Python `d[k]` / `d.get(k)`: first entry with the given key. -/
def aGet {α : Type} : List (String × α) → String → Option α
  | [], _ => none
  | kv :: rest, k => if kv.1 == k then some kv.2 else aGet rest k

/-- Python `d[k] = v`: replace the value of an existing key in place
(keeping its position), else append the new key at the end. -/
def aSet {α : Type} (d : List (String × α)) (k : String) (v : α) : List (String × α) :=
  if d.any (fun kv => kv.1 == k) then
    d.map (fun kv => if kv.1 == k then (k, v) else kv)
  else
    d ++ [(k, v)]

/-- Python `del d[k]` / `d.pop(k)`: drop the first entry with the key
(a Python dict holds each key at most once). -/
def aDel {α : Type} : List (String × α) → String → List (String × α)
  | [], _ => []
  | kv :: rest, k => if kv.1 == k then rest else kv :: aDel rest k

/-- The keys of a dict are pairwise distinct (always true of a Python
dict, and of a JSON object parsed by `json.load`). -/
def keysNodupB {α : Type} : List (String × α) → Bool
  | [] => true
  | kv :: rest => !(rest.any (fun kv2 => kv2.1 == kv.1)) && keysNodupB rest

/-- Python truthiness of a JSON value (`if val:` / `if not data:`). -/
def truthy : JVal → Bool
  | .jnull => false
  | .jbool b => b
  | .jnum n => n != 0
  | .jstr s => !s.isEmpty
  | .jarr xs => !xs.isEmpty
  | .jobj kvs => !kvs.isEmpty

/-- `isinstance(v, dict)`. -/
def isJObjB : JVal → Bool
  | .jobj _ => true
  | _ => false

/-- `isinstance(v, list)`. -/
def isArrB : JVal → Bool
  | .jarr _ => true
  | _ => false

/-- The element list of a JSON array (callers establish the argument is
an array). -/
def asArrD : JVal → List JVal
  | .jarr xs => xs
  | _ => []

/-! ## Constants of main.py -/

def DEFAULT_COLUMNS : List String := ["To Do", "In Progress", "Done"]

def DEFAULT_PROJECT_NAME : String := "Default Project"

def PRIORITIES : List String := ["Low", "Mid", "High"]

def DEFAULT_PRIORITY : String := "Mid"

/-- `{col: [] for col in DEFAULT_COLUMNS}`: a fresh project with the
three fixed columns empty. -/
def defaultProjectContent : JVal :=
  .jobj (DEFAULT_COLUMNS.map (fun c => (c, JVal.jarr [])))

/-- `{DEFAULT_PROJECT_NAME: {col: [] for col in DEFAULT_COLUMNS}}`. -/
def defaultWorkspace : List (String × JVal) :=
  [(DEFAULT_PROJECT_NAME, defaultProjectContent)]

/-! ## load_data (main.py lines 179-239) -/

/-- `generate_id` (main.py 175-177) returns `str(uuid.uuid4())[:8]`, an
8-character opaque token.  The uuid supply is modelled by a counter:
the n-th generated id is the hex digits of n left-padded/truncated to
8 characters. -/
def generate_id (n : Nat) : String :=
  String.mk ((Nat.toDigits 16 n ++ List.replicate 8 '0').take 8)

/-- The per-task normalization step of `load_data` (main.py 221-226):
a task that is a dict gets a generated id if `"id"` is absent and the
default priority if `"priority"` is absent (Python dict insertion adds
the new keys at the end); a non-dict task is dropped (`none`).  The
`Nat` is the id-supply counter. -/
def normalizeTask (c : Nat) (t : JVal) : Option (JVal × Nat) :=
  match t with
  | .jobj kvs =>
    let pr := if kvs.any (fun kv => kv.1 == "id") then (kvs, c)
              else (kvs ++ [("id", JVal.jstr (generate_id c))], c + 1)
    let kvs2 := if pr.1.any (fun kv => kv.1 == "priority") then pr.1
                else pr.1 ++ [("priority", JVal.jstr DEFAULT_PRIORITY)]
    some (.jobj kvs2, pr.2)
  | _ => none

/-- `for task in tasks_in_col: if isinstance(task, dict): ...` over a
column's raw task list, threading the id counter. -/
def normTasks : Nat → List JVal → List JVal × Nat
  | c, [] => ([], c)
  | c, t :: ts =>
    match normalizeTask c t with
    | none => normTasks c ts
    | some (t2, c2) =>
      let pr := normTasks c2 ts
      (t2 :: pr.1, pr.2)

/-- Python iteration `for task in v` over the value found under a column
key: lists yield their elements, strings their characters, dicts their
keys; `None`, booleans and numbers are not iterable (TypeError, which
`load_data` does not catch). -/
def pyIterTasks : JVal → Except Unit (List JVal)
  | .jarr xs => .ok xs
  | .jstr s => .ok (s.data.map (fun ch => JVal.jstr (String.mk [ch])))
  | .jobj kvs => .ok (kvs.map (fun kv => JVal.jstr kv.1))
  | _ => .error ()

/-- `project_content.get(col_name, [])` (main.py 219): `.get` on a
non-dict raises AttributeError, which `load_data` does not catch. -/
def pyDictGet (v : JVal) (k : String) (dflt : JVal) : Except Unit JVal :=
  match v with
  | .jobj kvs => .ok ((aGet kvs k).getD dflt)
  | _ => .error ()

/-- The inner column loop of `load_data` (main.py 217-226) for one
project: for each fixed column name in order, fetch the raw value
(default `[]`), iterate it and normalize each dict task. -/
def normCols : List String → Nat → JVal → Except Unit (List (String × JVal) × Nat)
  | [], c, _ => .ok ([], c)
  | col :: rest, c, content =>
    match pyDictGet content col (.jarr []) with
    | .error e => .error e
    | .ok v =>
      match pyIterTasks v with
      | .error e => .error e
      | .ok ts =>
        let pr := normTasks c ts
        match normCols rest pr.2 content with
        | .error e => .error e
        | .ok (tail, c3) => .ok ((col, JVal.jarr pr.1) :: tail, c3)

/-- Normalization of one project's content (main.py 216-226). -/
def normalizeProject (c : Nat) (content : JVal) : Except Unit (List (String × JVal) × Nat) :=
  normCols DEFAULT_COLUMNS c content

/-- `isinstance(val, dict) and DEFAULT_COLUMNS[0] in val`: the value is
a dict containing the FIRST fixed column name as a key. -/
def hasFirstColB (v : JVal) : Bool :=
  match v with
  | .jobj kvs => kvs.any (fun e => e.1 == (DEFAULT_COLUMNS.getD 0 ""))
  | _ => false

/-- The legacy-format heuristic (main.py 194):
`all(isinstance(val, dict) and DEFAULT_COLUMNS[0] in val for val in data.values() if val)` —
note that only the FIRST fixed column name is probed and that falsy
values (empty dicts, empty lists, `0`, `""`, ...) are skipped by the
`if val` filter. -/
def looksNewFormat (data : List (String × JVal)) : Bool :=
  data.all (fun kv => !truthy kv.2 || hasFirstColB kv.2)

/-- `{col: [] for col in DEFAULT_COLUMNS}` as an association list: the
single migrated project starts with the three fixed columns empty. -/
def migrateInit : List (String × JVal) :=
  DEFAULT_COLUMNS.map (fun c => (c, JVal.jarr []))

/-- The legacy-migration loop of `load_data` (main.py 195-205), folded
over the top-level entries: a key that is a fixed column name has its
value adopted as that column (dict assignment); any other key whose
value is a list has its dict-shaped elements appended (`list.extend`)
to the first fixed column — `.extend` on a non-list raises
AttributeError (uncaught).  Other values are skipped. -/
def migrateGo : List (String × JVal) → List (String × JVal) → Except Unit (List (String × JVal))
  | acc, [] => .ok acc
  | acc, (k, v) :: rest =>
    if DEFAULT_COLUMNS.contains k then
      migrateGo (aSet acc k v) rest
    else
      match v with
      | .jarr xs =>
        match aGet acc (DEFAULT_COLUMNS.getD 0 "") with
        | some (.jarr ys) =>
          migrateGo (aSet acc (DEFAULT_COLUMNS.getD 0 "") (.jarr (ys ++ xs.filter isJObjB))) rest
        | _ => .error ()
      | _ => migrateGo acc rest

/-- Legacy migration of the whole top-level mapping into the columns of
the single default project. -/
def migrate (kvs : List (String × JVal)) : Except Unit (List (String × JVal)) :=
  migrateGo migrateInit kvs

/-- The project loop of `load_data` (main.py 214-226): iterate
`project_keys`, fetching each project's content from `data`
(default `{}`) and normalizing it, threading the id counter. -/
def buildFinal (data : List (String × JVal)) : List String → Nat →
    Except Unit (List (String × JVal) × Nat)
  | [], c => .ok ([], c)
  | p :: rest, c =>
    match normalizeProject c ((aGet data p).getD (.jobj [])) with
    | .error e => .error e
    | .ok (cols, c1) =>
      match buildFinal data rest c1 with
      | .error e => .error e
      | .ok (tail, c2) => .ok ((p, JVal.jobj cols) :: tail, c2)

/-! ## save_data (main.py 242-245) and the atomic write
(async_save.py `_save_data_to_file`, lines 131-160), as traces of
filesystem states.

A filesystem is a map from path to optional file content (bytes as a
`String`); it is a function, since path names are unique.  A trace
lists the filesystem state at every observable instant of the call:
the initial state, one state per prefix of the bytes being written to
the file currently open for writing (killing the process mid-write
leaves such a prefix on disk; `open(path, "w")` truncates immediately,
the empty prefix), and one state per `os.remove`/`os.rename` call.
`os.fsync` changes no visible state.  The serialized form of the
workspace is abstracted as the `content` string. -/

/-- The first `i` characters of a string (the on-disk prefix of an
interrupted write). -/
def strTake (s : String) (i : Nat) : String :=
  String.mk (s.data.take i)

/-- Pointwise update of a filesystem at one path. -/
def fsUpd {α : Type} (fs : String → Option α) (p : String) (v : Option α) :
    String → Option α :=
  fun q => if q == p then v else fs q

/-- `os.rename(src, dst)`: atomically move the file, replacing `dst`
(the traces only call this when `src` exists). -/
def fsMove {α : Type} (fs : String → Option α) (src dst : String) :
    String → Option α :=
  match fs src with
  | some c => fsUpd (fsUpd fs src none) dst (some c)
  | none => fs

/-- All filesystem states of `_save_data_to_file(data, filename)`
(async_save.py 131-160) in order: write `filename + ".tmp"` prefix by
prefix and fsync it; if the target exists, remove any old backup and
rename the target to `filename + ".bak"`; finally rename the temp file
onto the target. -/
def atomicTrace (fs : String → Option String) (target content : String) :
    List (String → Option String) :=
  let tmp := target ++ ".tmp"
  let bak := target ++ ".bak"
  let writes := (List.range (content.length + 1)).map
    (fun i => fsUpd fs tmp (some (strTake content i)))
  let s1 := fsUpd fs tmp (some content)
  -- `if os.path.exists(filename)`: remove any old backup, rotate the
  -- target into the backup slot
  let rotStates :=
    match fs target with
    | some _ => [fsUpd s1 bak none, fsMove (fsUpd s1 bak none) target bak]
    | none => []
  let sPre :=
    match fs target with
    | some _ => fsMove (fsUpd s1 bak none) target bak
    | none => s1
  -- `os.rename(temp_filename, filename)`
  [fs] ++ writes ++ rotStates ++ [fsMove sPre tmp target]

/-- `save_now` (async_save.py 62-69) performs its write by calling
`_save_data_to_file` directly on the calling thread. -/
def saveNowTrace (fs : String → Option String) (target content : String) :
    List (String → Option String) :=
  atomicTrace fs target content

/-- The exception handler of `_save_data_to_file` (async_save.py
153-160): remove the temp file if present. -/
def cleanupTmp (target : String) (s : String → Option String) :
    String → Option String :=
  fsUpd s (target ++ ".tmp") none

/-- All filesystem states of the plain `save_data` in main.py (242-245):
`open(DATA_FILE, "w")` truncates the target in place, then `json.dump`
writes the bytes directly into it — no temp file, no fsync, no backup,
no rename. -/
def saveDataTrace (fs : String → Option String) (target content : String) :
    List (String → Option String) :=
  [fs] ++ (List.range (content.length + 1)).map
    (fun i => fsUpd fs target (some (strTake content i)))

/-! ## SaveRequest and the shallow copy (async_save.py 9-14, 54-60)

The caller's in-memory workspace is an object graph: the workspace dict
maps project names to project objects, a project object maps column
names to column-list objects, and mutation happens through these shared
references.  A `Store` holds the project and column-list objects,
addressed by position; the workspace dict itself is an association list
of (project name, project reference). -/

/-- The mutable object store: project objects (column name → column-list
reference) and column-list objects (lists of task values). -/
structure Store where
  projs : List (List (String × Nat))
  lists : List (List JVal)

/-- Dereference a column-list reference. -/
def readList (st : Store) (r : Nat) : List JVal :=
  (st.lists.get? r).getD []

/-- Dereference a project object into a pure JSON value. -/
def readProj (st : Store) (pobj : List (String × Nat)) : JVal :=
  .jobj (pobj.map (fun ce => (ce.1, JVal.jarr (readList st ce.2))))

/-- Dereference a workspace dict into the pure JSON value that
serializing it at this instant would produce. -/
def readWS (st : Store) (ws : List (String × Nat)) : JVal :=
  .jobj (ws.map (fun pe => (pe.1, readProj st ((st.projs.get? pe.2).getD []))))

/-- `data.copy()` (async_save.py 11): a new top-level dict with the same
entries — the project references are shared, not copied. -/
def dictCopy (d : List (String × Nat)) : List (String × Nat) :=
  d.map (fun kv => (kv.1, kv.2))

/-- `SaveRequest` (async_save.py 9-14); the callback, feedback flag and
timestamp play no role in the snapshot claims and are omitted. -/
structure SaveRequest where
  data : List (String × Nat)

/-- `SaveRequest.__init__`: `self.data = data.copy()`. -/
def mkSaveRequest (ws : List (String × Nat)) : SaveRequest :=
  ⟨dictCopy ws⟩

/-- The content the worker serializes when it finally writes the
request: the request's dict, dereferenced in the store as it is at
write time. -/
def writtenContent (st : Store) (rq : SaveRequest) : JVal :=
  readWS st rq.data

/-- Modelled from the spec: "an immutable deep copy of the Workspace
snapshot taken at enqueue time" — the fully dereferenced value of the
workspace at the instant of enqueue, independent of any later store
mutation. -/
def deepSnapshotSpec (st : Store) (ws : List (String × Nat)) : JVal :=
  readWS st ws

/-- A caller-side mutation of a nested column list through its shared
reference (e.g. `current_tasks[col].append(task)` in main.py). -/
def setListInStore (st : Store) (r : Nat) (l : List JVal) : Store :=
  ⟨st.projs, st.lists.set r l⟩

/-- Number of tasks in the "To Do" columns of a serialized workspace
value (an observer used to tell two snapshots apart). -/
def countToDo (j : JVal) : Nat :=
  match j with
  | .jobj ps =>
    ps.foldl (fun n pe =>
      n + (match pe.2 with
           | .jobj cols =>
             (match aGet cols "To Do" with
              | some (.jarr ts) => ts.length
              | _ => 0)
           | _ => 0)) 0
  | _ => 0

/-! ## The save queue drain (async_save.py 71-95)

`_save_worker` pops requests from the FIFO `Queue` one at a time and
writes each via `_save_data_to_file`; `_process_remaining_saves` drains
the same queue in the same order at shutdown.  There is a single worker
thread, so the queue is consumed strictly in enqueue order with no
coalescing.  The drain is therefore a sequential fold of successful
atomic writes; here the filesystem maps paths to (parsed) values, the
write granularity of the byte-level trace model above being irrelevant
to ordering. -/

/-- Net filesystem effect of one successful `_save_data_to_file` call:
the temp file is created and renamed away; any existing target rotates
to the backup; the target ends up holding the new snapshot. -/
def applyAtomicSave (fs : String → Option JVal) (target : String) (v : JVal) :
    String → Option JVal :=
  let tmp := target ++ ".tmp"
  let bak := target ++ ".bak"
  let s1 := fsUpd fs tmp (some v)
  let s3 :=
    match fs target with
    | some _ => fsMove (fsUpd s1 bak none) target bak
    | none => s1
  fsMove s3 tmp target

/-- Draining the queue: write the queued snapshots strictly in enqueue
(FIFO) order, one at a time. -/
def drainQueue (fs : String → Option JVal) (target : String) (snaps : List JVal) :
    String → Option JVal :=
  snaps.foldl (fun s v => applyAtomicSave s target v) fs

/-! ## Project management (main.py `manage_projects_modal`, 371-451) -/

/-- `project_names = [key for key in all_projects_data.keys() if key != "_meta"]`. -/
def projectNames (ws : List (String × JVal)) : List String :=
  (ws.map (fun kv => kv.1)).filter (fun k => k != "_meta")

def countProjects (ws : List (String × JVal)) : Nat :=
  (projectNames ws).length

/-- Create (main.py 380-390): requires a non-empty name not already a
key of the data dict; the new project gets the three empty columns. -/
def createProject (ws : List (String × JVal)) (name : String) : List (String × JVal) :=
  if !name.isEmpty && !(ws.any (fun kv => kv.1 == name)) then
    aSet ws name defaultProjectContent
  else
    ws

/-- The `_meta.last_project` fix-up after a rename (main.py 406-410).
`all_projects_data.get("_meta", {}).get("last_project")` yields a value
only when `_meta` is a dict (on a non-dict `_meta` the Python code
raises AttributeError after the rename mutations; the dict state at
that instant equals the no-update branch here). -/
def metaLastProject (ws : List (String × JVal)) : Option JVal :=
  match aGet ws "_meta" with
  | some (.jobj m) => aGet m "last_project"
  | _ => none

def setMetaLastProject (ws : List (String × JVal)) (name : String) : List (String × JVal) :=
  let m := match aGet ws "_meta" with
           | some (.jobj mk) => mk
           | _ => []
  aSet ws "_meta" (.jobj (aSet m "last_project" (.jstr name)))

/-- Rename (main.py 394-429): guarded by the selected project existing,
the new name being non-empty, different, and not already a key; the
project is re-inserted under the new name (at the end of the dict) and
the old key deleted, then `_meta.last_project` is fixed up. -/
def renameProject (ws : List (String × JVal)) (old new : String) : List (String × JVal) :=
  if (projectNames ws).contains old && !new.isEmpty && new != old &&
     !(ws.any (fun kv => kv.1 == new)) then
    let ws1 := aSet ws new ((aGet ws old).getD (.jobj []))
    let ws2 := aDel ws1 old
    match metaLastProject ws2 with
    | some (.jstr s) => if s == old then setMetaLastProject ws2 new else ws2
    | _ => ws2
  else
    ws

/-- Delete (main.py 430-449): only allowed while more than one project
exists (else "Cannot delete the last project!" and no change); the
user's confirmation is taken as given. -/
def deleteProject (ws : List (String × JVal)) (name : String) : List (String × JVal) :=
  if decide (1 < (projectNames ws).length) && (projectNames ws).contains name then
    aDel ws name
  else
    ws

/-- The project-management operations of the modal. -/
inductive ProjectOp where
  | create (name : String) : ProjectOp
  | rename (old new : String) : ProjectOp
  | delete (name : String) : ProjectOp

def applyProjectOp (ws : List (String × JVal)) : ProjectOp → List (String × JVal)
  | .create name => createProject ws name
  | .rename old new => renameProject ws old new
  | .delete name => deleteProject ws name

/-- What `load_data` starts from: the data file may be absent, may fail
to parse as JSON, or parses to a top-level JSON object (the claims only
concern object-shaped documents; a non-object top level would raise an
uncaught TypeError at `data.pop`). -/
inductive LoadInput where
  | missing : LoadInput
  | badParse : LoadInput
  | parsed (kvs : List (String × JVal)) : LoadInput

/-- The tail of `load_data` (main.py 207-234): default `project_keys`
when empty (`data[DEFAULT_PROJECT_NAME] = {}`), normalize every
project, reattach truthy metadata (`final_data["_meta"] = meta_data`),
and fall back to the default workspace when no project key remains. -/
def loadAssemble (data2 : List (String × JVal)) (metaData : JVal) (cnt : Nat) :
    Except Unit (List (String × JVal)) :=
  let pkeys := data2.map (fun kv => kv.1)
  let pd := if pkeys.isEmpty
            then ([DEFAULT_PROJECT_NAME], aSet data2 DEFAULT_PROJECT_NAME (.jobj []))
            else (pkeys, data2)
  match buildFinal pd.2 pd.1 cnt with
  | .error e => .error e
  | .ok (final, _) =>
    let final2 := if truthy metaData then aSet final "_meta" metaData else final
    if (final2.filter (fun kv => kv.1 != "_meta")).isEmpty then
      .ok defaultWorkspace
    else
      .ok final2

/-- `load_data` (main.py 179-239).  The `Nat` argument seeds the
generated-id supply.  `Except.error` marks inputs on which the Python
function raises an uncaught exception. -/
def loadData (inp : LoadInput) (cnt : Nat) : Except Unit (List (String × JVal)) :=
  match inp with
  | .missing => .ok defaultWorkspace
  | .badParse => .ok defaultWorkspace
  | .parsed kvs =>
    -- `if not data: data = {DEFAULT_PROJECT_NAME: {col: [] ...}}`
    let data0 := if kvs.isEmpty then defaultWorkspace else kvs
    -- `meta_data = data.pop("_meta", {})`
    let metaData := (aGet data0 "_meta").getD (.jobj [])
    let data1 := aDel data0 "_meta"
    -- legacy-format migration
    match (if looksNewFormat data1 then Except.ok data1
           else (migrate data1).map (fun m => [(DEFAULT_PROJECT_NAME, JVal.jobj m)])) with
    | .error e => .error e
    | .ok data2 => loadAssemble data2 metaData cnt

/-! ## Predicates used in the claims -/

/-- A normalized task: a dict carrying both an `"id"` and a
`"priority"` key (whatever their values). -/
def taskNormB (t : JVal) : Bool :=
  match t with
  | .jobj kvs => kvs.any (fun kv => kv.1 == "id") && kvs.any (fun kv => kv.1 == "priority")
  | _ => false

/-- A normalized project: exactly the three fixed columns, in order,
each an array of normalized tasks. -/
def colsNormB (v : JVal) : Bool :=
  match v with
  | .jobj [(a, .jarr xs), (b, .jarr ys), (c, .jarr zs)] =>
    a == "To Do" && b == "In Progress" && c == "Done" &&
    xs.all taskNormB && ys.all taskNormB && zs.all taskNormB
  | _ => false

/-- A normalized workspace: at least one project, and every non-`_meta`
entry a normalized project. -/
def wsNormalizedB (w : List (String × JVal)) : Bool :=
  let ps := w.filter (fun kv => kv.1 != "_meta")
  !ps.isEmpty && ps.all (fun kv => colsNormB kv.2)

/-- `task.get(k)`: a field of a task dict. -/
def taskField (t : JVal) (k : String) : Option JVal :=
  match t with
  | .jobj kvs => aGet kvs k
  | _ => none

/-- The task property claimed in C5: a dict task with a NON-EMPTY
string id and a priority drawn from `PRIORITIES`. -/
def claimTaskB (t : JVal) : Bool :=
  match t with
  | .jobj kvs =>
    (match aGet kvs "id" with
     | some (.jstr s) => !s.isEmpty
     | _ => false) &&
    (match aGet kvs "priority" with
     | some (.jstr p) => PRIORITIES.contains p
     | _ => false)
  | _ => false

/-- The workspace property claimed in C5: every project has exactly the
three fixed columns and every task satisfies `claimTaskB`. -/
def wsClaimValidB (w : List (String × JVal)) : Bool :=
  let ps := w.filter (fun kv => kv.1 != "_meta")
  !ps.isEmpty && ps.all (fun kv =>
    match kv.2 with
    | .jobj [(a, .jarr xs), (b, .jarr ys), (c, .jarr zs)] =>
      a == "To Do" && b == "In Progress" && c == "Done" &&
      xs.all claimTaskB && ys.all claimTaskB && zs.all claimTaskB
    | _ => false)

/-- A valid task in the sense of C4: a dict with `"id"`, `"title"` and a
priority in `{Low, Mid, High}` (extra keys allowed). -/
def validTaskB (t : JVal) : Bool :=
  match t with
  | .jobj kvs =>
    kvs.any (fun kv => kv.1 == "id") &&
    kvs.any (fun kv => kv.1 == "title") &&
    (match aGet kvs "priority" with
     | some (.jstr p) => PRIORITIES.contains p
     | _ => false)
  | _ => false

/-- A valid project content in the sense of C4: exactly the three fixed
columns in canonical order, each an array of valid tasks. -/
def validColsB (v : JVal) : Bool :=
  match v with
  | .jobj [(a, .jarr xs), (b, .jarr ys), (c, .jarr zs)] =>
    a == "To Do" && b == "In Progress" && c == "Done" &&
    xs.all validTaskB && ys.all validTaskB && zs.all validTaskB
  | _ => false

/-- The optional trailing `_meta` entry of a workspace and the project
part before it. -/
def splitLastMeta (w : List (String × JVal)) : List (String × JVal) × Option JVal :=
  match w.getLast? with
  | some kv => if kv.1 == "_meta" then (w.dropLast, some kv.2) else (w, none)
  | none => (w, none)

/-- `_meta`, when present, is a non-empty object (`load_data` drops a
falsy `_meta` on reattach, so only such metadata can round-trip). -/
def metaOkB : Option JVal → Bool
  | none => true
  | some (.jobj kvs) => !kvs.isEmpty
  | some _ => false

/-- A valid workspace in the sense of C4: distinct keys, at least one
project, every project named other than `_meta` and valid, plus an
optional non-empty `_meta` object as the last entry. -/
def validWSB (w : List (String × JVal)) : Bool :=
  keysNodupB w &&
  (let pr := splitLastMeta w
   !pr.1.isEmpty &&
   pr.1.all (fun kv => kv.1 != "_meta" && validColsB kv.2) &&
   metaOkB pr.2)

/-! ## Spec-side definitions for the classification and migration claims -/

/-- Modelled from the spec (C7): a document is classified as legacy
exactly when "at least one of the three fixed column names is not found
as a key one level down", i.e. some top-level value is not a mapping
containing ALL the fixed column names as keys. -/
def specLegacyB (data : List (String × JVal)) : Bool :=
  data.any (fun kv =>
    !(match kv.2 with
      | .jobj kvs => DEFAULT_COLUMNS.all (fun c => kvs.any (fun e => e.1 == c))
      | _ => false))

/-- Every top-level key that is a fixed column name maps to a list
(the premise of C6: "column-name keys mapping directly to task lists"). -/
def colsAreListsB (kvs : List (String × JVal)) : Bool :=
  kvs.all (fun kv => !(DEFAULT_COLUMNS.contains kv.1) || isArrB kv.2)

/-- No list-valued non-fixed key precedes the `"To Do"` key (when the
latter is present): the entries before the first `"To Do"` entry are
fixed-column keys or non-list values.  When this fails, the later
`"To Do"` dict assignment overwrites the entries already appended by
the migration (see the C6 counterexample). -/
def toDoFirstB (kvs : List (String × JVal)) : Bool :=
  ((kvs.takeWhile (fun kv => kv.1 != "To Do")).all
     (fun kv => DEFAULT_COLUMNS.contains kv.1 || !isArrB kv.2)) ||
  !(kvs.any (fun kv => kv.1 == "To Do"))

/-- The dict-shaped elements of all list-valued non-fixed top-level
keys, in original order (the entries the spec says are appended to the
first fixed column during legacy migration). -/
def appendsAll (kvs : List (String × JVal)) : List JVal :=
  ((kvs.filter (fun kv => !(DEFAULT_COLUMNS.contains kv.1) && isArrB kv.2)).map
    (fun kv => (asArrD kv.2).filter isJObjB)).flatten

/-- Drop the non-fixed column keys of every project value (used to state
C10: tasks under non-fixed keys do not survive a new-format load). -/
def filterProjVal : JVal → JVal
  | .jobj kvs => .jobj (kvs.filter (fun kv => DEFAULT_COLUMNS.contains kv.1))
  | v => v

/-- Apply `filterProjVal` to every top-level value except `_meta`. -/
def filterCols (kvs : List (String × JVal)) : List (String × JVal) :=
  kvs.map (fun kv => if kv.1 == "_meta" then kv else (kv.1, filterProjVal kv.2))

/-! ## Concrete example data used by witnesses and counterexamples -/

/-- A filesystem holding only the data file, with content "OLD". -/
def exampleFS : String → Option String :=
  fun p => if p == "kanby_data.json" then some "OLD" else none

/-- A store with one project object (the three fixed columns referring
to column-list objects 0, 1, 2) and three empty column lists. -/
def exampleStore0 : Store :=
  ⟨[[("To Do", 0), ("In Progress", 1), ("Done", 2)]], [[], [], []]⟩

/-- The caller's workspace dict: one project, referring to project
object 0. -/
def exampleWSDict : List (String × Nat) :=
  [("Default Project", 0)]

/-- The store after the caller appends a task to the "To Do" column
list through the shared reference (after enqueue, before the worker
writes). -/
def exampleStore1 : Store :=
  setListInStore exampleStore0 0
    [JVal.jobj [("id", JVal.jstr "t1"), ("title", JVal.jstr "X"),
                ("priority", JVal.jstr "Mid")]]

/-! # Theorems -/

/-! ## Generic lemmas about the filesystem model -/

theorem fsUpd_self {α : Type} (fs : String → Option α) (p : String) (v : Option α) :
    fsUpd fs p v p = v := by
  simp [fsUpd]

theorem fsUpd_ne {α : Type} (fs : String → Option α) {p q : String} (v : Option α)
    (h : q ≠ p) : fsUpd fs p v q = fs q := by
  simp [fsUpd, h]

theorem pathNeOfLen {a b : String} (h : a.length ≠ b.length) : a ≠ b :=
  fun e => h (congrArg String.length e)

/-- A path is distinct from itself with a 4-character suffix attached. -/
theorem ne_dotted (t sfx : String) (h4 : sfx.length = 4) : t ≠ t ++ sfx := by
  apply pathNeOfLen
  rw [String.length_append, h4]
  omega

/-- Two distinct 4-character suffixes give distinct paths. -/
theorem dotted_ne_dotted (t : String) {s1 s2 : String} (h : s1 ≠ s2) :
    t ++ s1 ≠ t ++ s2 := by
  intro e
  apply h
  have e2 : (t ++ s1).data = (t ++ s2).data := congrArg String.data e
  rw [String.data_append, String.data_append] at e2
  exact String.ext (List.append_cancel_left e2)

/-- Pointwise evaluation of a rename. -/
theorem fsMove_eval {α : Type} (fs : String → Option α) (src dst q : String) :
    fsMove fs src dst q =
      match fs src with
      | some c => if q == dst then some c else if q == src then none else fs q
      | none => fs q := by
  cases h : fs src <;> simp [fsMove, h, fsUpd]

/-- Every state in the atomic-write trace shows the target path either
with its pre-write content, or absent while the backup path holds the
pre-write content, or with the complete new content — never partial
bytes. -/
theorem atomicTrace_cases (fs : String → Option String) (target content : String)
    {s : String → Option String} (hs : s ∈ atomicTrace fs target content) :
    s target = fs target ∨
    (s target = none ∧ s (target ++ ".bak") = fs target) ∨
    s target = some content := by
  have htmp : target ≠ target ++ ".tmp" := ne_dotted _ _ rfl
  have hbak : target ≠ target ++ ".bak" := ne_dotted _ _ rfl
  have htb : target ++ ".tmp" ≠ target ++ ".bak" := dotted_ne_dotted _ (by decide)
  have hbt : target ++ ".bak" ≠ target ++ ".tmp" := dotted_ne_dotted _ (by decide)
  simp only [atomicTrace] at hs
  rcases List.mem_append.mp hs with h1 | hfin
  · rcases List.mem_append.mp h1 with h2 | hrot
    · rcases List.mem_append.mp h2 with hhead | hwrites
      · have hse : s = fs := List.mem_singleton.mp hhead
        subst hse
        exact Or.inl rfl
      · obtain ⟨i, _, hi⟩ := List.mem_map.mp hwrites
        subst hi
        exact Or.inl (fsUpd_ne fs _ htmp)
    · cases hfst : fs target with
      | none => rw [hfst] at hrot; cases hrot
      | some old =>
        rw [hfst] at hrot
        rcases List.mem_cons.mp hrot with hs2 | hrot2
        · subst hs2
          rw [fsUpd_ne _ _ hbak, fsUpd_ne _ _ htmp]
          exact Or.inl hfst
        · have hs3 : s = fsMove (fsUpd (fsUpd fs (target ++ ".tmp") (some content)) (target ++ ".bak") none) target (target ++ ".bak") :=
            List.mem_singleton.mp hrot2
          subst hs3
          have h2 : (fsUpd (fsUpd fs (target ++ ".tmp") (some content)) (target ++ ".bak") none) target = some old := by
            rw [fsUpd_ne _ _ hbak, fsUpd_ne _ _ htmp, hfst]
          refine Or.inr (Or.inl ?_)
          constructor
          · rw [fsMove_eval, h2]
            simp [hbak]
          · rw [fsMove_eval, h2]
            simp [hfst]
  · have hse : s = _ := List.mem_singleton.mp hfin
    subst hse
    refine Or.inr (Or.inr ?_)
    cases hfst : fs target with
    | none =>
      simp only [hfst]
      have h3 : (fsUpd fs (target ++ ".tmp") (some content)) (target ++ ".tmp") = some content :=
        fsUpd_self _ _ _
      rw [fsMove_eval, h3]
      simp
    | some old =>
      simp only [hfst]
      have h2 : (fsUpd (fsUpd fs (target ++ ".tmp") (some content)) (target ++ ".bak") none) target = some old := by
        rw [fsUpd_ne _ _ hbak, fsUpd_ne _ _ htmp, hfst]
      have h3 : (fsMove (fsUpd (fsUpd fs (target ++ ".tmp") (some content)) (target ++ ".bak") none) target (target ++ ".bak")) (target ++ ".tmp") = some content := by
        rw [fsMove_eval, h2]
        simp [fsUpd, htb, hbt, htmp.symm]
      rw [fsMove_eval, h3]
      simp

/-- The last trace state of the atomic write holds the full new content
at the target path. -/
theorem atomicTrace_getLast (fs : String → Option String) (target content : String) :
    (atomicTrace fs target content).getLast?.map (fun s => s target) = some (some content) := by
  have htmp : target ≠ target ++ ".tmp" := ne_dotted _ _ rfl
  have hbak : target ≠ target ++ ".bak" := ne_dotted _ _ rfl
  have htb : target ++ ".tmp" ≠ target ++ ".bak" := dotted_ne_dotted _ (by decide)
  have hbt : target ++ ".bak" ≠ target ++ ".tmp" := dotted_ne_dotted _ (by decide)
  simp only [atomicTrace]
  rw [List.getLast?_concat]
  simp only [Option.map_some']
  cases hfst : fs target with
  | none =>
    simp only [hfst]
    have h3 : (fsUpd fs (target ++ ".tmp") (some content)) (target ++ ".tmp") = some content :=
      fsUpd_self _ _ _
    rw [fsMove_eval, h3]
    simp
  | some old =>
    simp only [hfst]
    have h2 : (fsUpd (fsUpd fs (target ++ ".tmp") (some content)) (target ++ ".bak") none) target = some old := by
      rw [fsUpd_ne _ _ hbak, fsUpd_ne _ _ htmp, hfst]
    have h3 : (fsMove (fsUpd (fsUpd fs (target ++ ".tmp") (some content)) (target ++ ".bak") none) target (target ++ ".bak")) (target ++ ".tmp") = some content := by
      rw [fsMove_eval, h2]
      simp [fsUpd, htb, hbt, htmp.symm]
    rw [fsMove_eval, h3]
    simp

/-- C2 (corrected): at every instant of the atomic write, the target
path holds either the full pre-write content, or — in the window
between the backup rotation and the final rename — no file at all while
the backup path `target + ".bak"` holds the pre-write content, or the
full new content; it never holds partial bytes, and the last state
holds the new content.  (The claim as stated — the target always equals
its pre-write content before the final rename — fails in the rotation
window, see the counterexample.) -/
theorem C2_atomic_write_never_partial (fs : String → Option String) (target content : String) :
    (∀ s, s ∈ atomicTrace fs target content →
        s target = fs target ∨
        (s target = none ∧ s (target ++ ".bak") = fs target) ∨
        s target = some content) ∧
    (atomicTrace fs target content).getLast?.map (fun s => s target) = some (some content) :=
  ⟨fun _ hs => atomicTrace_cases fs target content hs,
   atomicTrace_getLast fs target content⟩

/-- Witness for C2: the amended theorem applied at a concrete
filesystem (data file present with content "OLD"), at the initial trace
state. -/
theorem C2_atomic_write_never_partial_witness :
    (exampleFS ∈ atomicTrace exampleFS "kanby_data.json" "NEW" →
      exampleFS "kanby_data.json" = exampleFS "kanby_data.json" ∨
      (exampleFS "kanby_data.json" = none ∧
        exampleFS ("kanby_data.json" ++ ".bak") = exampleFS "kanby_data.json") ∨
      exampleFS "kanby_data.json" = some "NEW") ∧
    (exampleFS ∈ atomicTrace exampleFS "kanby_data.json" "NEW") ∧
    (atomicTrace exampleFS "kanby_data.json" "NEW").getLast?.map
      (fun s => s "kanby_data.json") = some (some "NEW") :=
  ⟨fun hs => ( C2_atomic_write_never_partial exampleFS "kanby_data.json" "NEW").1 exampleFS hs,
   List.mem_cons_self _ _,
   ( C2_atomic_write_never_partial exampleFS "kanby_data.json" "NEW").2⟩

/-- Counterexample for C2 as stated: with the data file present
(content "OLD"), the trace state reached after `os.rename(filename,
backup_filename)` and before `os.rename(temp_filename, filename)` —
index 6 of the trace for 3-byte content — has NO file at the target
path, so the target does not equal its pre-write content in that
window (the pre-write content survives only at the backup path). -/
theorem C2_rotation_window_counterexample :
    ((atomicTrace exampleFS "kanby_data.json" "NEW").get? 6).map
        (fun s => s "kanby_data.json") = some none ∧
    ((atomicTrace exampleFS "kanby_data.json" "NEW").get? 6).map
        (fun s => s ("kanby_data.json" ++ ".bak")) = some (some "OLD") ∧
    exampleFS "kanby_data.json" = some "OLD" := by
  refine ⟨?_, ?_, rfl⟩ <;> decide

/-- C3 (corrected): the synchronous save path of the async manager
(`save_now`, which calls `_save_data_to_file` directly) does follow the
atomic-write discipline: after the failure cleanup (removing the temp
file) at any instant of the write, the temp file is gone and the target
holds either the full pre-write content, or nothing while the backup
holds the pre-write content, or the full new content — never partial
bytes.  (The claim as stated fails for the OTHER synchronous save path,
`save_data` in main.py, which truncates and rewrites the target in
place — see the counterexample; and on a failure after the backup
rotation even `save_now` leaves the pre-write content at the backup
path rather than the target path.) -/
theorem C3_save_now_atomic_cleanup (fs : String → Option String) (target content : String) :
    ∀ s, s ∈ saveNowTrace fs target content →
      cleanupTmp target s (target ++ ".tmp") = none ∧
      (cleanupTmp target s target = fs target ∨
       (cleanupTmp target s target = none ∧
        cleanupTmp target s (target ++ ".bak") = fs target) ∨
       cleanupTmp target s target = some content) := by
  intro s hs
  have htmp : target ≠ target ++ ".tmp" := ne_dotted _ _ rfl
  have hbt : target ++ ".bak" ≠ target ++ ".tmp" := dotted_ne_dotted _ (by decide)
  constructor
  · exact fsUpd_self _ _ _
  · have h1 : cleanupTmp target s target = s target := fsUpd_ne _ _ htmp
    have h2 : cleanupTmp target s (target ++ ".bak") = s (target ++ ".bak") :=
      fsUpd_ne _ _ hbt
    rw [h1, h2]
    exact atomicTrace_cases fs target content hs

/-- Witness for C3: the amended theorem applied at a concrete
filesystem (data file present, content "OLD") at the initial trace
state. -/
theorem C3_save_now_atomic_cleanup_witness :
    (exampleFS ∈ saveNowTrace exampleFS "kanby_data.json" "NEW") ∧
    (cleanupTmp "kanby_data.json" exampleFS ("kanby_data.json" ++ ".tmp") = none ∧
     (cleanupTmp "kanby_data.json" exampleFS "kanby_data.json" = exampleFS "kanby_data.json" ∨
      (cleanupTmp "kanby_data.json" exampleFS "kanby_data.json" = none ∧
       cleanupTmp "kanby_data.json" exampleFS ("kanby_data.json" ++ ".bak") =
         exampleFS "kanby_data.json") ∨
      cleanupTmp "kanby_data.json" exampleFS "kanby_data.json" = some "NEW")) :=
  ⟨List.mem_cons_self _ _,
   C3_save_now_atomic_cleanup exampleFS "kanby_data.json" "NEW" exampleFS
     (List.mem_cons_self _ _)⟩

/-- Counterexample for C3 as stated: `save_data` in main.py (the direct
synchronous path used by the app, including at shutdown) opens the
target itself with mode "w", so immediately after the open — trace
index 1 — the target is truncated to zero bytes while its pre-write
content was "OLD": a synchronous save that fails mid-write corrupts the
existing storage, with no temp file or backup involved. -/
theorem C3_save_data_truncation_counterexample :
    ((saveDataTrace exampleFS "kanby_data.json" "NEW").get? 1).map
        (fun s => s "kanby_data.json") = some (some "") ∧
    exampleFS "kanby_data.json" = some "OLD" ∧
    ((saveDataTrace exampleFS "kanby_data.json" "NEW").get? 1).map
        (fun s => s ("kanby_data.json" ++ ".tmp")) = some none := by
  refine ⟨?_, rfl, ?_⟩ <;> decide

/-- C1 (code bug): `SaveRequest.__init__` copies the workspace with the
shallow `data.copy()`, so the queued request shares the nested project
and column-list objects with the caller.  Evaluated at the failing
input: a workspace with one project whose "To Do" list is empty at
enqueue time; the caller then appends one task to that column list
through the shared reference before the worker runs.  The content the
worker writes contains the task (1 task in "To Do"), while the
enqueue-time snapshot that the spec requires contains none. -/
theorem C1_shallow_copy_leaks_mutation :
    countToDo (writtenContent exampleStore1 (mkSaveRequest exampleWSDict)) = 1 ∧
    countToDo (deepSnapshotSpec exampleStore0 exampleWSDict) = 0 ∧
    writtenContent exampleStore1 (mkSaveRequest exampleWSDict) ≠
      deepSnapshotSpec exampleStore0 exampleWSDict := by
  refine ⟨by decide, by decide, fun h => ?_⟩
  have h2 := congrArg countToDo h
  revert h2
  decide

/-- One successful atomic save leaves the snapshot at the target path. -/
theorem applyAtomicSave_target (fs : String → Option JVal) (target : String) (v : JVal) :
    applyAtomicSave fs target v target = some v := by
  have htmp : target ≠ target ++ ".tmp" := ne_dotted _ _ rfl
  have hbak : target ≠ target ++ ".bak" := ne_dotted _ _ rfl
  have htb : target ++ ".tmp" ≠ target ++ ".bak" := dotted_ne_dotted _ (by decide)
  have hbt : target ++ ".bak" ≠ target ++ ".tmp" := dotted_ne_dotted _ (by decide)
  simp only [applyAtomicSave]
  cases hfst : fs target with
  | none =>
    simp only [hfst]
    have h3 : (fsUpd fs (target ++ ".tmp") (some v)) (target ++ ".tmp") = some v :=
      fsUpd_self _ _ _
    rw [fsMove_eval, h3]
    simp
  | some old =>
    simp only [hfst]
    have h2 : (fsUpd (fsUpd fs (target ++ ".tmp") (some v)) (target ++ ".bak") none) target = some old := by
      rw [fsUpd_ne _ _ hbak, fsUpd_ne _ _ htmp, hfst]
    have h3 : (fsMove (fsUpd (fsUpd fs (target ++ ".tmp") (some v)) (target ++ ".bak") none) target (target ++ ".bak")) (target ++ ".tmp") = some v := by
      rw [fsMove_eval, h2]
      simp [fsUpd, htb, hbt, htmp.symm]
    rw [fsMove_eval, h3]
    simp

/-- C8: the worker consumes the queue strictly in FIFO order, one
request at a time, with no coalescing; draining any enqueued sequence
of snapshots therefore leaves the last-enqueued snapshot as the final
on-disk content of the target, regardless of when the individual writes
happen. -/
theorem C8_fifo_drain_final_content (fs : String → Option JVal) (target : String)
    (snaps : List JVal) (lastV : JVal) (h : snaps.getLast? = some lastV) :
    drainQueue fs target snaps target = some lastV := by
  induction snaps generalizing fs with
  | nil => cases h
  | cons v rest ih =>
    cases rest with
    | nil =>
      have hv : v = lastV := by
        simpa using h
      subst hv
      exact applyAtomicSave_target fs target v
    | cons r2 rs =>
      have h2 : (r2 :: rs).getLast? = some lastV := by
        rwa [List.getLast?_cons_cons] at h
      exact ih (applyAtomicSave fs target v) h2

/-- Witness for C8: draining three concrete snapshots S1, S2, S3 from
an empty filesystem leaves S3 on disk. -/
theorem C8_fifo_drain_final_content_witness :
    ([JVal.jstr "S1", JVal.jstr "S2", JVal.jstr "S3"].getLast? = some (JVal.jstr "S3")) ∧
    drainQueue (fun _ => none) "kanby_data.json"
      [JVal.jstr "S1", JVal.jstr "S2", JVal.jstr "S3"] "kanby_data.json" =
      some (JVal.jstr "S3") :=
  ⟨rfl, C8_fifo_drain_final_content (fun _ => none) "kanby_data.json"
    [JVal.jstr "S1", JVal.jstr "S2", JVal.jstr "S3"] (JVal.jstr "S3") rfl⟩

/-! ## Project management lemmas (C9) -/

theorem countProjects_cons (kv : String × JVal) (rest : List (String × JVal)) :
    countProjects (kv :: rest) =
      (if kv.1 = "_meta" then 0 else 1) + countProjects rest := by
  by_cases h : kv.1 = "_meta" <;>
    simp [countProjects, projectNames, List.filter_cons, h] <;> omega

theorem projectNames_append (a b : List (String × JVal)) :
    projectNames (a ++ b) = projectNames a ++ projectNames b := by
  simp [projectNames]

theorem countProjects_append_single (ws : List (String × JVal)) (k : String) (v : JVal) :
    countProjects (ws ++ [(k, v)]) =
      countProjects ws + (if k = "_meta" then 0 else 1) := by
  by_cases h : k = "_meta" <;>
    simp [countProjects, projectNames_append, projectNames, List.filter_cons, h]

theorem aSet_keys_of_mem {α : Type} (d : List (String × α)) (k : String) (v : α)
    (h : d.any (fun kv => kv.1 == k) = true) :
    (aSet d k v).map Prod.fst = d.map Prod.fst := by
  simp only [aSet, h, if_true, List.map_map]
  apply List.map_congr_left
  intro kv _
  by_cases hkv : kv.1 = k
  · simp [hkv]
  · simp [hkv]

theorem countProjects_aSet_ge (ws : List (String × JVal)) (k : String) (v : JVal) :
    countProjects ws ≤ countProjects (aSet ws k v) := by
  by_cases h : ws.any (fun kv => kv.1 == k) = true
  · have hk := aSet_keys_of_mem ws k v h
    simp [countProjects, projectNames, hk]
  · have hne : ws.any (fun kv => kv.1 == k) = false := by
      revert h; cases ws.any (fun kv => kv.1 == k) <;> simp
    rw [aSet, hne]
    simp only [Bool.false_eq_true, if_false]
    rw [countProjects_append_single]
    omega

theorem countProjects_aSet_meta (ws : List (String × JVal)) (v : JVal) :
    countProjects (aSet ws "_meta" v) = countProjects ws := by
  by_cases h : ws.any (fun kv => kv.1 == "_meta") = true
  · have hk := aSet_keys_of_mem ws "_meta" v h
    simp [countProjects, projectNames, hk]
  · have hne : ws.any (fun kv => kv.1 == "_meta") = false := by
      revert h; cases ws.any (fun kv => kv.1 == "_meta") <;> simp
    rw [aSet, hne]
    simp only [Bool.false_eq_true, if_false]
    rw [countProjects_append_single]
    simp

theorem mem_projectNames_ne_meta {ws : List (String × JVal)} {name : String}
    (h : name ∈ projectNames ws) : name ≠ "_meta" := by
  have h2 := List.of_mem_filter h
  simpa using h2

theorem countProjects_aDel {ws : List (String × JVal)} {name : String}
    (h : name ∈ projectNames ws) :
    countProjects (aDel ws name) + 1 = countProjects ws := by
  induction ws with
  | nil => simp [projectNames] at h
  | cons kv rest ih =>
    have hname : name ≠ "_meta" := mem_projectNames_ne_meta h
    by_cases hkv : kv.1 = name
    · rw [aDel]
      simp only [hkv, beq_self_eq_true, if_true]
      rw [countProjects_cons]
      simp only [hkv]
      simp [hname]
      omega
    · rw [aDel]
      have : (kv.1 == name) = false := by simp [hkv]
      simp only [this, Bool.false_eq_true, if_false]
      have hrest : name ∈ projectNames rest := by
        rcases List.mem_filter.mp h with ⟨hm, hp⟩
        rcases List.mem_map.mp hm with ⟨e, he, hfst⟩
        rcases List.mem_cons.mp he with rfl | he2
        · exact absurd hfst hkv
        · exact List.mem_filter.mpr ⟨List.mem_map.mpr ⟨e, he2, hfst⟩, hp⟩
      rw [countProjects_cons, countProjects_cons]
      have := ih hrest
      omega

theorem countProjects_setMetaLastProject (ws : List (String × JVal)) (name : String) :
    countProjects (setMetaLastProject ws name) = countProjects ws := by
  simp only [setMetaLastProject]
  exact countProjects_aSet_meta _ _

theorem contains_projectNames_mem {ws : List (String × JVal)} {name : String}
    (h : (projectNames ws).contains name = true) : name ∈ projectNames ws := by
  simpa using h

/-- C9: with the reserved `_meta` entry present (main.py sets it via
`save_last_project_to_data` before the modal can run), an attempt to
delete the only remaining project leaves the workspace unchanged, and
every project-management operation of the modal preserves the
invariant that at least one project (a key other than `_meta`)
exists. -/
theorem C9_last_project_protected (ws : List (String × JVal))
    (hm : ws.any (fun kv => kv.1 == "_meta") = true) :
    (countProjects ws = 1 → ∀ name, deleteProject ws name = ws) ∧
    (∀ op : ProjectOp, 1 ≤ countProjects ws → 1 ≤ countProjects (applyProjectOp ws op)) := by
  constructor
  · intro h name
    have hlen : (projectNames ws).length = 1 := h
    simp only [deleteProject, hlen]
    simp
  · intro op hge
    cases op with
    | create name =>
      simp only [applyProjectOp, createProject]
      by_cases hg : (!name.isEmpty && !(ws.any fun kv => kv.1 == name)) = true
      · rw [if_pos hg]
        exact le_trans hge (countProjects_aSet_ge ws name defaultProjectContent)
      · rw [if_neg hg]
        exact hge
    | delete name =>
      simp only [applyProjectOp, deleteProject]
      by_cases hg : (decide (1 < (projectNames ws).length) &&
          (projectNames ws).contains name) = true
      · rw [if_pos hg]
        rcases (Bool.and_eq_true _ _).mp hg with ⟨hgt, hcon⟩
        have hlt : 1 < (projectNames ws).length := of_decide_eq_true hgt
        have hmem := contains_projectNames_mem hcon
        have hdel := countProjects_aDel hmem
        simp only [countProjects] at hdel hlt ⊢
        omega
      · rw [if_neg hg]
        exact hge
    | rename old new =>
      simp only [applyProjectOp, renameProject]
      by_cases hg : ((projectNames ws).contains old && !new.isEmpty && new != old &&
          !(ws.any fun kv => kv.1 == new)) = true
      · rw [if_pos hg]
        rcases (Bool.and_eq_true _ _).mp hg with ⟨hg3, hnewmem⟩
        rcases (Bool.and_eq_true _ _).mp hg3 with ⟨hg2, _⟩
        rcases (Bool.and_eq_true _ _).mp hg2 with ⟨hcon, _⟩
        have hnew : (ws.any fun kv => kv.1 == new) = false := by
          revert hnewmem; cases ws.any fun kv => kv.1 == new <;> simp
        have hnewmeta : new ≠ "_meta" := by
          intro he
          rw [he] at hnew
          rw [hm] at hnew
          cases hnew
        have hmemold := contains_projectNames_mem hcon
        have hws1 : aSet ws new ((aGet ws old).getD (JVal.jobj [])) =
            ws ++ [(new, (aGet ws old).getD (JVal.jobj []))] := by
          rw [aSet, hnew]
          simp
        rw [hws1]
        have hcnt1 : countProjects (ws ++ [(new, (aGet ws old).getD (JVal.jobj []))]) =
            countProjects ws + 1 := by
          rw [countProjects_append_single]
          simp [hnewmeta]
        have hmemold1 : old ∈ projectNames (ws ++ [(new, (aGet ws old).getD (JVal.jobj []))]) := by
          rw [projectNames_append]
          exact List.mem_append_left _ hmemold
        have hdel := countProjects_aDel hmemold1
        set ws2 := aDel (ws ++ [(new, (aGet ws old).getD (JVal.jobj []))]) old with hws2
        have hcnt2 : 1 ≤ countProjects ws2 := by omega
        cases hml : metaLastProject ws2 with
        | none => simp only [hml]; exact hcnt2
        | some jv =>
          cases jv with
          | jstr s =>
            simp only [hml]
            by_cases hseq : (s == old) = true
            · rw [if_pos hseq]
              rw [countProjects_setMetaLastProject]
              exact hcnt2
            · rw [if_neg hseq]
              exact hcnt2
          | jnull => simp only [hml]; exact hcnt2
          | jbool b => simp only [hml]; exact hcnt2
          | jnum n => simp only [hml]; exact hcnt2
          | jarr xs => simp only [hml]; exact hcnt2
          | jobj kvs => simp only [hml]; exact hcnt2
      · rw [if_neg hg]
        exact hge

/-- Witness for C9: a workspace with a single project "P" and the
`_meta` entry; deleting "P" is rejected, and a delete operation keeps
the project count at least 1. -/
theorem C9_last_project_protected_witness :
    deleteProject [("P", defaultProjectContent),
                   ("_meta", JVal.jobj [("last_project", JVal.jstr "P")])] "P" =
      [("P", defaultProjectContent),
       ("_meta", JVal.jobj [("last_project", JVal.jstr "P")])] ∧
    1 ≤ countProjects (applyProjectOp
      [("P", defaultProjectContent),
       ("_meta", JVal.jobj [("last_project", JVal.jstr "P")])] (.delete "P")) :=
  ⟨(C9_last_project_protected _ (by decide)).1 (by decide) "P",
   (C9_last_project_protected _ (by decide)).2 (.delete "P") (by decide)⟩

/-! ## Legacy-format classification (C7) -/

/-- C7 (corrected): `load_data` classifies a parsed document as legacy
exactly when some TRUTHY top-level value is not a dict containing the
FIRST fixed column name `"To Do"` as a key.  (Only `DEFAULT_COLUMNS[0]`
is probed — not all three fixed names — and falsy values such as empty
dicts are skipped by the `if val` filter, contrary to the claim as
stated; see the counterexample.) -/
theorem C7_legacy_check_probes_first_column_only (data : List (String × JVal)) :
    looksNewFormat data = false ↔
      ∃ kv ∈ data, truthy kv.2 = true ∧ hasFirstColB kv.2 = false := by
  constructor
  · intro h
    rcases List.all_eq_false.mp h with ⟨kv, hmem, hp⟩
    refine ⟨kv, hmem, ?_⟩
    revert hp
    cases ht : truthy kv.2 <;> cases hf : hasFirstColB kv.2 <;> simp
  · intro ⟨kv, hmem, ht, hf⟩
    apply List.all_eq_false.mpr
    refine ⟨kv, hmem, ?_⟩
    simp [ht, hf]

/-- Witness for C7 (amended): `{"Legacy": [..]}` — a truthy list value
— is classified legacy by the heuristic. -/
theorem C7_legacy_check_probes_first_column_only_witness :
    looksNewFormat [("Legacy", JVal.jarr [JVal.jnum 1])] = false :=
  (C7_legacy_check_probes_first_column_only [("Legacy", JVal.jarr [JVal.jnum 1])]).mpr
    ⟨("Legacy", JVal.jarr [JVal.jnum 1]), List.mem_cons_self _ _, rfl, rfl⟩

/-- Counterexample for C7 as stated: `{"P": {"To Do": []}}` lacks two of
the three fixed column names one level down, so the claimed rule calls
it legacy; but the code's heuristic (probing only `"To Do"`) classifies
it as NEW format — observably, the loaded workspace keeps the project
name "P" instead of merging everything into "Default Project". -/
theorem C7_classification_counterexample :
    specLegacyB [("P", JVal.jobj [("To Do", JVal.jarr [])])] = true ∧
    looksNewFormat [("P", JVal.jobj [("To Do", JVal.jarr [])])] = true ∧
    loadData (.parsed [("P", JVal.jobj [("To Do", JVal.jarr [])])]) 0 =
      .ok [("P", JVal.jobj [("To Do", JVal.jarr []), ("In Progress", JVal.jarr []),
                            ("Done", JVal.jarr [])])] :=
  ⟨rfl, rfl, rfl⟩

/-! ## Normalization invariant (C5, shared with C10) -/

/-- A task kept by the normalization step carries both keys. -/
theorem normalizeTask_normed {c : Nat} {t t2 : JVal} {c2 : Nat}
    (h : normalizeTask c t = some (t2, c2)) : taskNormB t2 = true := by
  cases t with
  | jobj kvs =>
    simp only [normalizeTask, Option.some.injEq, Prod.mk.injEq] at h
    obtain ⟨h1, _⟩ := h
    subst h1
    have hasId : ((if (kvs.any fun kv => kv.1 == "id") then (kvs, c)
        else (kvs ++ [("id", JVal.jstr (generate_id c))], c + 1)).1.any
          fun kv => kv.1 == "id") = true := by
      by_cases hid : (kvs.any fun kv => kv.1 == "id") = true
      · simp [hid]
      · simp [hid, List.any_append]
    simp only [taskNormB]
    generalize hEq : (if (kvs.any fun kv => kv.1 == "id") then (kvs, c)
        else (kvs ++ [("id", JVal.jstr (generate_id c))], c + 1)) = p at hasId ⊢
    by_cases hp : (p.1.any fun kv => kv.1 == "priority") = true
    · simp [hp, hasId]
    · simp [hp, List.any_append, hasId]
  | jnull => simp [normalizeTask] at h
  | jbool b => simp [normalizeTask] at h
  | jnum n => simp [normalizeTask] at h
  | jstr s => simp [normalizeTask] at h
  | jarr xs => simp [normalizeTask] at h

/-- Every task surviving a column normalization is normalized. -/
theorem normTasks_normed (ts : List JVal) : ∀ c, (normTasks c ts).1.all taskNormB = true := by
  induction ts with
  | nil => intro c; rfl
  | cons t rest ih =>
    intro c
    cases hn : normalizeTask c t with
    | none => simp only [normTasks, hn]; exact ih c
    | some pr =>
      obtain ⟨t2, c2⟩ := pr
      simp only [normTasks, hn, List.all_cons]
      rw [normalizeTask_normed hn, ih c2]
      rfl

/-- Shape of a successful column loop: one entry per requested column,
in order, each an array of normalized tasks. -/
theorem normCols_shape : ∀ (cols : List String) (c : Nat) (content : JVal)
    (out : List (String × JVal)) (c2 : Nat),
    normCols cols c content = .ok (out, c2) →
    out.map Prod.fst = cols ∧
    ∀ e ∈ out, ∃ ts : List JVal, e.2 = JVal.jarr ts ∧ ts.all taskNormB = true := by
  intro cols
  induction cols with
  | nil =>
    intro c content out c2 h
    simp only [normCols, Except.ok.injEq, Prod.mk.injEq] at h
    obtain ⟨h1, _⟩ := h
    subst h1
    simp
  | cons col rest ih =>
    intro c content out c2 h
    simp only [normCols] at h
    cases h1 : pyDictGet content col (.jarr []) with
    | error e => simp [h1] at h
    | ok v =>
      simp only [h1] at h
      cases h2 : pyIterTasks v with
      | error e => simp [h2] at h
      | ok ts =>
        simp only [h2] at h
        cases h3 : normCols rest (normTasks c ts).2 content with
        | error e => simp [h3] at h
        | ok pr2 =>
          obtain ⟨tail, c3⟩ := pr2
          simp only [h3] at h
          simp only [Except.ok.injEq, Prod.mk.injEq] at h
          obtain ⟨h4, _⟩ := h
          subst h4
          obtain ⟨ihm, ihv⟩ := ih _ content tail c3 h3
          constructor
          · simp [ihm]
          · intro e he
            rcases List.mem_cons.mp he with rfl | he2
            · exact ⟨(normTasks c ts).1, rfl, normTasks_normed ts c⟩
            · exact ihv e he2

theorem aGet_append_of_absent {α : Type} (d l : List (String × α)) (k : String)
    (h : (d.any fun kv => kv.1 == k) = false) : aGet (d ++ l) k = aGet l k := by
  induction d with
  | nil => rfl
  | cons kv rest ih =>
    simp only [List.any_cons, Bool.or_eq_false_iff] at h
    obtain ⟨h1, h2⟩ := h
    simp only [List.cons_append, aGet, h1, Bool.false_eq_true, if_false]
    exact ih h2

/-- A successful project normalization yields exactly the three fixed
columns with normalized tasks. -/
theorem normalizeProject_colsNorm {c : Nat} {content : JVal}
    {out : List (String × JVal)} {c2 : Nat}
    (h : normalizeProject c content = .ok (out, c2)) :
    colsNormB (JVal.jobj out) = true := by
  obtain ⟨hmap, hval⟩ := normCols_shape DEFAULT_COLUMNS c content out c2 h
  cases out with
  | nil => simp [DEFAULT_COLUMNS] at hmap
  | cons e1 o1 =>
    cases o1 with
    | nil => simp [DEFAULT_COLUMNS] at hmap
    | cons e2 o2 =>
      cases o2 with
      | nil => simp [DEFAULT_COLUMNS] at hmap
      | cons e3 o3 =>
        cases o3 with
        | cons e4 o4 => simp [DEFAULT_COLUMNS] at hmap
        | nil =>
          obtain ⟨k1, v1⟩ := e1
          obtain ⟨k2, v2⟩ := e2
          obtain ⟨k3, v3⟩ := e3
          simp only [DEFAULT_COLUMNS, List.map_cons, List.map_nil, List.cons.injEq,
            and_true] at hmap
          obtain ⟨h1, h2, h3⟩ := hmap
          subst h1; subst h2; subst h3
          obtain ⟨ts1, hv1, ht1⟩ := hval ("To Do", v1) (by simp)
          obtain ⟨ts2, hv2, ht2⟩ := hval ("In Progress", v2) (by simp)
          obtain ⟨ts3, hv3, ht3⟩ := hval ("Done", v3) (by simp)
          simp only at hv1 hv2 hv3
          subst hv1; subst hv2; subst hv3
          simp [colsNormB, ht1, ht2, ht3]

/-- Every project of a successful build has normalized columns. -/
theorem buildFinal_normed : ∀ (pkeys : List String) (data : List (String × JVal)) (c : Nat)
    (final : List (String × JVal)) (c2 : Nat),
    buildFinal data pkeys c = .ok (final, c2) →
    ∀ kv ∈ final, colsNormB kv.2 = true := by
  intro pkeys
  induction pkeys with
  | nil =>
    intro data c final c2 h kv hkv
    simp only [buildFinal, Except.ok.injEq, Prod.mk.injEq] at h
    obtain ⟨h1, _⟩ := h
    rw [← h1] at hkv
    cases hkv
  | cons p rest ih =>
    intro data c final c2 h kv hkv
    simp only [buildFinal] at h
    cases h1 : normalizeProject c ((aGet data p).getD (.jobj [])) with
    | error e => simp [h1] at h
    | ok pr =>
      obtain ⟨cols, c1⟩ := pr
      simp only [h1] at h
      cases h2 : buildFinal data rest c1 with
      | error e => simp [h2] at h
      | ok pr2 =>
        obtain ⟨tail, c3⟩ := pr2
        simp only [h2, Except.ok.injEq, Prod.mk.injEq] at h
        obtain ⟨h3, _⟩ := h
        rw [← h3] at hkv
        rcases List.mem_cons.mp hkv with rfl | hkv2
        · exact normalizeProject_colsNorm h1
        · exact ih data c1 tail c3 h2 kv hkv2

theorem filter_ne_meta_map_set (d : List (String × JVal)) (v : JVal) :
    (d.map (fun kv => if kv.1 == "_meta" then ("_meta", v) else kv)).filter
        (fun kv => kv.1 != "_meta") =
      d.filter (fun kv => kv.1 != "_meta") := by
  induction d with
  | nil => rfl
  | cons kv rest ih =>
    simp only [List.map_cons]
    by_cases h : kv.1 = "_meta"
    · have hmap : (if kv.1 == "_meta" then ("_meta", v) else kv) = ("_meta", v) := by
        simp [h]
      rw [hmap, List.filter_cons, List.filter_cons]
      simp only [h, bne_self_eq_false, Bool.false_eq_true, if_false]
      exact ih
    · have hmap : (if kv.1 == "_meta" then ("_meta", v) else kv) = kv := by
        simp [h]
      rw [hmap, List.filter_cons, List.filter_cons]
      have hcond : (kv.1 != "_meta") = true := by simp [h]
      rw [hcond]
      simp only [if_true]
      rw [ih]

/-- Reattaching `_meta` does not change the project part. -/
theorem filter_ne_meta_aSet_meta (d : List (String × JVal)) (v : JVal) :
    (aSet d "_meta" v).filter (fun kv => kv.1 != "_meta") =
      d.filter (fun kv => kv.1 != "_meta") := by
  by_cases h : (d.any fun kv => kv.1 == "_meta") = true
  · simp only [aSet, h, if_true]
    exact filter_ne_meta_map_set d v
  · have h2 : (d.any fun kv => kv.1 == "_meta") = false := by
      revert h; cases d.any fun kv => kv.1 == "_meta" <;> simp
    simp only [aSet, h2, Bool.false_eq_true, if_false]
    simp [List.filter_append]

/-- The assembly stage always returns a normalized workspace. -/
theorem loadAssemble_normalized (data2 : List (String × JVal)) (metaData : JVal) (c : Nat)
    (res : List (String × JVal)) (h : loadAssemble data2 metaData c = .ok res) :
    wsNormalizedB res = true := by
  simp only [loadAssemble] at h
  cases hb : buildFinal
      (if (data2.map (fun kv => kv.1)).isEmpty
       then ([DEFAULT_PROJECT_NAME], aSet data2 DEFAULT_PROJECT_NAME (.jobj [])) else
       (data2.map (fun kv => kv.1), data2)).2
      (if (data2.map (fun kv => kv.1)).isEmpty
       then ([DEFAULT_PROJECT_NAME], aSet data2 DEFAULT_PROJECT_NAME (.jobj [])) else
       (data2.map (fun kv => kv.1), data2)).1 c with
  | error e => simp only [hb] at h; exact Except.noConfusion h
  | ok pr =>
    obtain ⟨final, cX⟩ := pr
    simp only [hb] at h
    by_cases hfe : ((if truthy metaData then aSet final "_meta" metaData else final).filter
        (fun kv => kv.1 != "_meta")).isEmpty = true
    · rw [if_pos hfe] at h
      injection h with h2
      rw [← h2]
      decide
    · rw [if_neg hfe] at h
      injection h with h2
      rw [← h2]
      simp only [wsNormalizedB, Bool.and_eq_true]
      constructor
      · revert hfe
        cases ((if truthy metaData then aSet final "_meta" metaData else final).filter
          (fun kv => kv.1 != "_meta")).isEmpty <;> simp
      · apply List.all_eq_true.mpr
        intro kv hkv
        have hkv2 : kv ∈ final := by
          cases hm : truthy metaData with
          | true =>
            rw [hm] at hkv
            simp only [if_true] at hkv
            rw [filter_ne_meta_aSet_meta] at hkv
            exact (List.mem_filter.mp hkv).1
          | false =>
            rw [hm] at hkv
            simp only [Bool.false_eq_true, if_false] at hkv
            exact (List.mem_filter.mp hkv).1
        exact buildFinal_normed _ _ _ _ _ hb kv hkv2

/-- Whatever `load_data` is given, a successfully returned workspace is
normalized: at least one project, every project exactly the three fixed
columns, every task a dict with `"id"` and `"priority"` keys. -/
theorem loadData_normalized (inp : LoadInput) (c : Nat) (res : List (String × JVal))
    (h : loadData inp c = .ok res) : wsNormalizedB res = true := by
  cases inp with
  | missing =>
    simp only [loadData, Except.ok.injEq] at h
    rw [← h]
    decide
  | badParse =>
    simp only [loadData, Except.ok.injEq] at h
    rw [← h]
    decide
  | parsed kvs =>
    simp only [loadData] at h
    cases hcl : (if looksNewFormat (aDel (if kvs.isEmpty then defaultWorkspace else kvs) "_meta")
        then Except.ok (aDel (if kvs.isEmpty then defaultWorkspace else kvs) "_meta")
        else (migrate (aDel (if kvs.isEmpty then defaultWorkspace else kvs) "_meta")).map
          (fun m => [(DEFAULT_PROJECT_NAME, JVal.jobj m)])) with
    | error e => rw [hcl] at h; exact Except.noConfusion h
    | ok data2 =>
      rw [hcl] at h
      exact loadAssemble_normalized data2 _ c res h

theorem generate_id_length (c : Nat) : (generate_id c).length = 8 := by
  simp only [generate_id, String.length_mk, List.length_take, List.length_append,
    List.length_replicate]
  omega

/-- C5 (corrected): every workspace successfully returned by
`load_data` has exactly the three fixed columns in every project and
every task is a dict carrying `"id"` and `"priority"` keys; a task
lacking `"id"` receives the generated 8-character id, and one lacking
`"priority"` receives the default `"Mid"`.  (Contrary to the claim as
stated, values already present are NOT validated: an empty id or a
priority outside `{Low, Mid, High}` in the input survives the load —
see the counterexample.) -/
theorem C5_normalization_completeness :
    (∀ (inp : LoadInput) (c : Nat) (res : List (String × JVal)),
       loadData inp c = .ok res → wsNormalizedB res = true) ∧
    (∀ c : Nat, (generate_id c).length = 8) ∧
    (∀ (c : Nat) (kvs : List (String × JVal)),
       (kvs.any fun kv => kv.1 == "id") = false →
       (normalizeTask c (.jobj kvs)).map (fun pr => taskField pr.1 "id") =
         some (some (.jstr (generate_id c)))) ∧
    (∀ (c : Nat) (kvs : List (String × JVal)),
       (kvs.any fun kv => kv.1 == "priority") = false →
       (normalizeTask c (.jobj kvs)).map (fun pr => taskField pr.1 "priority") =
         some (some (.jstr DEFAULT_PRIORITY))) := by
  refine ⟨loadData_normalized, generate_id_length, ?_, ?_⟩
  · intro c kvs hid
    simp only [normalizeTask, hid, Bool.false_eq_true, if_false, Option.map_some']
    by_cases hp : ((kvs ++ [("id", JVal.jstr (generate_id c))]).any
        fun kv => kv.1 == "priority") = true
    · simp only [hp, if_true, taskField]
      rw [aGet_append_of_absent kvs _ _ hid]
      simp [aGet]
    · have hp2 : ((kvs ++ [("id", JVal.jstr (generate_id c))]).any
          fun kv => kv.1 == "priority") = false := by
        revert hp
        cases ((kvs ++ [("id", JVal.jstr (generate_id c))]).any
          fun kv => kv.1 == "priority") <;> simp
      simp only [hp2, Bool.false_eq_true, if_false, taskField]
      rw [List.append_assoc]
      rw [aGet_append_of_absent kvs _ _ hid]
      simp [aGet]
  · intro c kvs hp
    simp only [normalizeTask]
    by_cases hid : (kvs.any fun kv => kv.1 == "id") = true
    · simp only [hid, if_true, hp, Bool.false_eq_true, if_false, Option.map_some', taskField]
      rw [aGet_append_of_absent kvs _ _ hp]
      simp [aGet]
    · have hid2 : (kvs.any fun kv => kv.1 == "id") = false := by
        revert hid
        cases kvs.any fun kv => kv.1 == "id" <;> simp
      simp only [hid2, Bool.false_eq_true, if_false]
      have hp2 : ((kvs ++ [("id", JVal.jstr (generate_id c))]).any
          fun kv => kv.1 == "priority") = false := by
        simp [List.any_append, hp]
      simp only [hp2, Bool.false_eq_true, if_false, Option.map_some', taskField]
      rw [List.append_assoc]
      rw [aGet_append_of_absent kvs _ _ hp]
      simp [aGet]

/-- Witness for C5: loading a new-format document whose task lacks both
id and priority yields a workspace that is normalized, with the task
receiving the 8-character generated id and priority "Mid". -/
theorem C5_normalization_completeness_witness :
    (loadData (.parsed [("P", JVal.jobj [("To Do",
        JVal.jarr [JVal.jobj [("title", JVal.jstr "X")]])])]) 0 =
      .ok [("P", JVal.jobj [("To Do", JVal.jarr [JVal.jobj [("title", JVal.jstr "X"),
        ("id", JVal.jstr (generate_id 0)), ("priority", JVal.jstr "Mid")]]),
        ("In Progress", JVal.jarr []), ("Done", JVal.jarr [])])]) ∧
    wsNormalizedB [("P", JVal.jobj [("To Do", JVal.jarr [JVal.jobj [("title", JVal.jstr "X"),
        ("id", JVal.jstr (generate_id 0)), ("priority", JVal.jstr "Mid")]]),
        ("In Progress", JVal.jarr []), ("Done", JVal.jarr [])])] = true ∧
    (generate_id 0).length = 8 ∧
    ([(("title" : String), JVal.jstr "X")].any fun kv => kv.1 == "id") = false ∧
    (normalizeTask 0 (.jobj [("title", JVal.jstr "X")])).map
      (fun pr => taskField pr.1 "id") = some (some (.jstr (generate_id 0))) :=
  ⟨rfl,
   C5_normalization_completeness.1
     (.parsed [("P", JVal.jobj [("To Do", JVal.jarr [JVal.jobj [("title", JVal.jstr "X")]])])])
     0 _ rfl,
   C5_normalization_completeness.2.1 0,
   rfl,
   C5_normalization_completeness.2.2.1 0 [("title", JVal.jstr "X")] rfl⟩

/-- Counterexample for C5 as stated: a task arriving with an EMPTY id
and priority "Bogus" (outside {Low, Mid, High}) passes through
`load_data` unchanged, so the loaded workspace violates the claimed
"non-empty id, priority in {Low, Mid, High}" property. -/
theorem C5_unvalidated_fields_counterexample :
    loadData (.parsed [("P", JVal.jobj [("To Do",
        JVal.jarr [JVal.jobj [("id", JVal.jstr ""), ("priority", JVal.jstr "Bogus")]]),
        ("In Progress", JVal.jarr []), ("Done", JVal.jarr [])])]) 0 =
      .ok [("P", JVal.jobj [("To Do",
        JVal.jarr [JVal.jobj [("id", JVal.jstr ""), ("priority", JVal.jstr "Bogus")]]),
        ("In Progress", JVal.jarr []), ("Done", JVal.jarr [])])] ∧
    wsClaimValidB [("P", JVal.jobj [("To Do",
        JVal.jarr [JVal.jobj [("id", JVal.jstr ""), ("priority", JVal.jstr "Bogus")]]),
        ("In Progress", JVal.jarr []), ("Done", JVal.jarr [])])] = false :=
  ⟨rfl, rfl⟩

/-! ## Round-trip (C4) -/

theorem aGet_some_any {α : Type} {d : List (String × α)} {k : String} {x : α}
    (h : aGet d k = some x) : (d.any fun kv => kv.1 == k) = true := by
  induction d with
  | nil => simp [aGet] at h
  | cons kv rest ih =>
    simp only [aGet] at h
    by_cases hk : (kv.1 == k) = true
    · simp [List.any_cons, hk]
    · have hk2 : (kv.1 == k) = false := by
        revert hk; cases kv.1 == k <;> simp
      rw [hk2] at h
      simp only [Bool.false_eq_true, if_false] at h
      simp [List.any_cons, ih h]

/-- With distinct keys, looking up any entry's key finds that entry. -/
theorem aGet_self_of_nodup {d : List (String × JVal)}
    (hnd : keysNodupB d = true) : ∀ kv ∈ d, aGet d kv.1 = some kv.2 := by
  induction d with
  | nil => intro kv hkv; cases hkv
  | cons e rest ih =>
    simp only [keysNodupB, Bool.and_eq_true] at hnd
    obtain ⟨hhead, hrest⟩ := hnd
    intro kv hkv
    rcases List.mem_cons.mp hkv with rfl | hkv2
    · simp [aGet]
    · have hne : (e.1 == kv.1) = false := by
        by_cases he : (e.1 == kv.1) = true
        · exfalso
          have : (rest.any fun kv2 => kv2.1 == e.1) = true := by
            apply List.any_eq_true.mpr
            refine ⟨kv, hkv2, ?_⟩
            have he2 : e.1 = kv.1 := by simpa using he
            simp [he2]
          rw [this] at hhead
          cases hhead
        · revert he; cases e.1 == kv.1 <;> simp
      simp only [aGet, hne, Bool.false_eq_true, if_false]
      exact ih hrest kv hkv2

/-- A task already valid in the C4 sense is left unchanged by the
normalization step. -/
theorem normalizeTask_valid_id {t : JVal} (hv : validTaskB t = true) (c : Nat) :
    normalizeTask c t = some (t, c) := by
  cases t with
  | jobj kvs =>
    simp only [validTaskB, Bool.and_eq_true] at hv
    obtain ⟨⟨hid, _⟩, hprio⟩ := hv
    have hp : (kvs.any fun kv => kv.1 == "priority") = true := by
      cases hg : aGet kvs "priority" with
      | none => rw [hg] at hprio; cases hprio
      | some x => exact aGet_some_any hg
    simp [normalizeTask, hid, hp]
  | jnull => simp [validTaskB] at hv
  | jbool b => simp [validTaskB] at hv
  | jnum n => simp [validTaskB] at hv
  | jstr s => simp [validTaskB] at hv
  | jarr xs => simp [validTaskB] at hv

/-- A list of valid tasks normalizes to itself, consuming no ids. -/
theorem normTasks_valid {ts : List JVal} (hv : ts.all validTaskB = true) (c : Nat) :
    normTasks c ts = (ts, c) := by
  induction ts generalizing c with
  | nil => rfl
  | cons t rest ih =>
    simp only [List.all_cons, Bool.and_eq_true] at hv
    obtain ⟨ht, hrest⟩ := hv
    simp [normTasks, normalizeTask_valid_id ht c, ih hrest c]

/-- Destructuring a valid project content. -/
theorem validColsB_shape {v : JVal} (hv : validColsB v = true) :
    ∃ xs ys zs : List JVal,
      v = JVal.jobj [("To Do", .jarr xs), ("In Progress", .jarr ys), ("Done", .jarr zs)] ∧
      xs.all validTaskB = true ∧ ys.all validTaskB = true ∧ zs.all validTaskB = true := by
  unfold validColsB at hv
  split at hv
  · rename_i a xs b ys c zs
    simp only [Bool.and_eq_true] at hv
    obtain ⟨⟨⟨⟨⟨ha, hb⟩, hc⟩, hxs⟩, hys⟩, hzs⟩ := hv
    have ha2 : a = "To Do" := by simpa using ha
    have hb2 : b = "In Progress" := by simpa using hb
    have hc2 : c = "Done" := by simpa using hc
    subst ha2; subst hb2; subst hc2
    exact ⟨xs, ys, zs, rfl, hxs, hys, hzs⟩
  · cases hv

/-- A valid project content normalizes to itself, consuming no ids. -/
theorem normalizeProject_valid {v : JVal} (hv : validColsB v = true) (c : Nat) :
    ∃ cols : List (String × JVal),
      v = JVal.jobj cols ∧ normalizeProject c v = .ok (cols, c) := by
  obtain ⟨xs, ys, zs, hshape, hxs, hys, hzs⟩ := validColsB_shape hv
  subst hshape
  refine ⟨_, rfl, ?_⟩
  simp only [normalizeProject, DEFAULT_COLUMNS, normCols, pyDictGet, aGet, pyIterTasks]
  simp [normTasks_valid hxs, normTasks_valid hys, normTasks_valid hzs, aGet]

/-- Building from keys whose lookups are valid projects reproduces the
entries unchanged. -/
theorem buildFinal_valid : ∀ (qs ps : List (String × JVal)) (c : Nat),
    (∀ kv ∈ qs, aGet ps kv.1 = some kv.2 ∧ validColsB kv.2 = true) →
    buildFinal ps (qs.map (fun kv => kv.1)) c = .ok (qs, c) := by
  intro qs
  induction qs with
  | nil => intro ps c _; rfl
  | cons kv rest ih =>
    intro ps c hq
    obtain ⟨hget, hval⟩ := hq kv (List.mem_cons_self _ _)
    obtain ⟨cols, hshape, hnorm⟩ := normalizeProject_valid hval c
    simp only [List.map_cons, buildFinal, hget, Option.getD_some, hnorm]
    rw [ih ps c (fun e he => hq e (List.mem_cons_of_mem _ he))]
    rw [← hshape]

theorem aGet_meta_of_all_ne {ps : List (String × JVal)}
    (h : ps.all (fun kv => kv.1 != "_meta") = true) : aGet ps "_meta" = none := by
  induction ps with
  | nil => rfl
  | cons kv rest ih =>
    simp only [List.all_cons, Bool.and_eq_true] at h
    obtain ⟨h1, h2⟩ := h
    have h3 : (kv.1 == "_meta") = false := by
      simpa [bne] using h1
    simp only [aGet, h3, Bool.false_eq_true, if_false]
    exact ih h2

theorem aDel_meta_of_all_ne {ps : List (String × JVal)}
    (h : ps.all (fun kv => kv.1 != "_meta") = true) : aDel ps "_meta" = ps := by
  induction ps with
  | nil => rfl
  | cons kv rest ih =>
    simp only [List.all_cons, Bool.and_eq_true] at h
    obtain ⟨h1, h2⟩ := h
    have h3 : (kv.1 == "_meta") = false := by
      simpa [bne] using h1
    simp only [aDel, h3, Bool.false_eq_true, if_false]
    rw [ih h2]

theorem aGet_append_meta {ps : List (String × JVal)} {v : JVal}
    (h : ps.all (fun kv => kv.1 != "_meta") = true) :
    aGet (ps ++ [("_meta", v)]) "_meta" = some v := by
  have h2 : (ps.any fun kv => kv.1 == "_meta") = false := by
    cases ha : ps.any fun kv => kv.1 == "_meta"
    · rfl
    · exfalso
      obtain ⟨kv, hkv, hb⟩ := List.any_eq_true.mp ha
      have := List.all_eq_true.mp h kv hkv
      simp only [bne] at this
      rw [hb] at this
      cases this
  rw [aGet_append_of_absent ps _ _ h2]
  simp [aGet]

theorem aDel_append_meta {ps : List (String × JVal)} {v : JVal}
    (h : ps.all (fun kv => kv.1 != "_meta") = true) :
    aDel (ps ++ [("_meta", v)]) "_meta" = ps := by
  induction ps with
  | nil => simp [aDel]
  | cons kv rest ih =>
    simp only [List.all_cons, Bool.and_eq_true] at h
    obtain ⟨h1, h2⟩ := h
    have h3 : (kv.1 == "_meta") = false := by
      simpa [bne] using h1
    simp only [List.cons_append, aDel, h3, Bool.false_eq_true, if_false]
    exact congrArg (fun l => kv :: l) (ih h2)

theorem looksNewFormat_of_valid {ps : List (String × JVal)}
    (h : ps.all (fun kv => kv.1 != "_meta" && validColsB kv.2) = true) :
    looksNewFormat ps = true := by
  apply List.all_eq_true.mpr
  intro kv hkv
  have h2 := List.all_eq_true.mp h kv hkv
  simp only [Bool.and_eq_true] at h2
  obtain ⟨xs, ys, zs, hshape, _⟩ := validColsB_shape h2.2
  rw [hshape]
  simp [hasFirstColB, DEFAULT_COLUMNS]

theorem keysNodupB_append_left {α : Type} (ps l : List (String × α))
    (h : keysNodupB (ps ++ l) = true) : keysNodupB ps = true := by
  induction ps with
  | nil => rfl
  | cons kv rest ih =>
    simp only [List.cons_append, keysNodupB, Bool.and_eq_true] at h ⊢
    obtain ⟨h1, h2⟩ := h
    refine ⟨?_, ih h2⟩
    have h3 : ((rest ++ l).any fun kv2 => kv2.1 == kv.1) = false := by
      simpa using h1
    rw [List.any_append] at h3
    rcases Bool.or_eq_false_iff.mp h3 with ⟨h4, _⟩
    simp [h4]

theorem all_ne_meta_of_valid {ps : List (String × JVal)}
    (hall : ps.all (fun kv => kv.1 != "_meta" && validColsB kv.2) = true) :
    ps.all (fun kv => kv.1 != "_meta") = true := by
  apply List.all_eq_true.mpr
  intro kv h
  exact ((Bool.and_eq_true _ _).mp (List.all_eq_true.mp hall kv h)).1

/-- Loading a valid workspace without metadata returns it unchanged. -/
theorem loadData_valid_nometa (ps : List (String × JVal)) (c : Nat)
    (hne : ps ≠ [])
    (hnd : keysNodupB ps = true)
    (hall : ps.all (fun kv => kv.1 != "_meta" && validColsB kv.2) = true) :
    loadData (.parsed ps) c = .ok ps := by
  have hallm : ps.all (fun kv => kv.1 != "_meta") = true := all_ne_meta_of_valid hall
  have hallv : ∀ kv ∈ ps, validColsB kv.2 = true := fun kv h =>
    ((Bool.and_eq_true _ _).mp (List.all_eq_true.mp hall kv h)).2
  have hemp : ps.isEmpty = false := List.isEmpty_eq_false.mpr hne
  have hpk : ((ps.map fun kv => kv.1).isEmpty) = false := by
    apply List.isEmpty_eq_false.mpr
    simp [hne]
  have hbuild := buildFinal_valid ps ps c
    (fun kv h => ⟨aGet_self_of_nodup hnd kv h, hallv kv h⟩)
  have hfilter : ps.filter (fun kv => kv.1 != "_meta") = ps :=
    List.filter_eq_self.mpr (List.all_eq_true.mp hallm)
  simp only [loadData, hemp, Bool.false_eq_true, if_false, aGet_meta_of_all_ne hallm,
    Option.getD_none, aDel_meta_of_all_ne hallm, looksNewFormat_of_valid hall, if_true]
  simp only [loadAssemble, hpk, Bool.false_eq_true, if_false, hbuild]
  simp only [truthy, List.isEmpty_nil, Bool.not_true, Bool.false_eq_true, if_false]
  rw [hfilter]
  simp [hemp]

/-- Loading a valid workspace with a trailing non-empty `_meta` object
returns it unchanged. -/
theorem loadData_valid_meta (ps : List (String × JVal)) (mkvs : List (String × JVal)) (c : Nat)
    (hne : ps ≠ [])
    (hnd : keysNodupB ps = true)
    (hall : ps.all (fun kv => kv.1 != "_meta" && validColsB kv.2) = true)
    (hmk : mkvs ≠ []) :
    loadData (.parsed (ps ++ [("_meta", JVal.jobj mkvs)])) c =
      .ok (ps ++ [("_meta", JVal.jobj mkvs)]) := by
  have hallm : ps.all (fun kv => kv.1 != "_meta") = true := all_ne_meta_of_valid hall
  have hallv : ∀ kv ∈ ps, validColsB kv.2 = true := fun kv h =>
    ((Bool.and_eq_true _ _).mp (List.all_eq_true.mp hall kv h)).2
  have hemp : (ps ++ [("_meta", JVal.jobj mkvs)]).isEmpty = false := by
    apply List.isEmpty_eq_false.mpr
    simp
  have hpk : ((ps.map fun kv => kv.1).isEmpty) = false := by
    apply List.isEmpty_eq_false.mpr
    simp [hne]
  have hbuild := buildFinal_valid ps ps c
    (fun kv h => ⟨aGet_self_of_nodup hnd kv h, hallv kv h⟩)
  have hanym : (ps.any fun kv => kv.1 == "_meta") = false := by
    cases ha : ps.any fun kv => kv.1 == "_meta"
    · rfl
    · exfalso
      obtain ⟨kv, hkv, hb⟩ := List.any_eq_true.mp ha
      have := List.all_eq_true.mp hallm kv hkv
      simp only [bne] at this
      rw [hb] at this
      cases this
  have hfilter : ps.filter (fun kv => kv.1 != "_meta") = ps :=
    List.filter_eq_self.mpr (List.all_eq_true.mp hallm)
  have htr : truthy (JVal.jobj mkvs) = true := by
    simp [truthy, List.isEmpty_eq_false.mpr hmk]
  simp only [loadData, hemp, Bool.false_eq_true, if_false, aGet_append_meta hallm,
    Option.getD_some, aDel_append_meta hallm, looksNewFormat_of_valid hall, if_true]
  simp only [loadAssemble, hpk, Bool.false_eq_true, if_false, hbuild]
  simp only [htr, if_true]
  have hset : aSet ps "_meta" (JVal.jobj mkvs) = ps ++ [("_meta", JVal.jobj mkvs)] := by
    simp only [aSet, hanym, Bool.false_eq_true, if_false]
  rw [hset]
  rw [List.filter_append, hfilter]
  simp only [List.filter_cons, List.filter_nil]
  simp [List.isEmpty_eq_false.mpr hne]

/-- C4 (corrected): loading the serialized form of any valid workspace
(at least one project, distinct keys, every project exactly the three
fixed columns in canonical order with tasks carrying id, title and a
priority in {Low, Mid, High}, plus an optional NON-EMPTY `_meta` object
last) returns it field-for-field unchanged, including task order within
columns.  The non-emptiness restriction is the amendment the
counterexample forces: `load_data` reattaches the popped metadata only
under `if meta_data:`, so a workspace whose `_meta` is the empty object
`{}` — allowed by the spec's data model — loses that entry on the round
trip.  Serialization/parsing is modelled at the JSON-value level:
`json.dump` followed by `json.load` is value-preserving. -/
theorem C4_round_trip_load_save (w : List (String × JVal)) (c : Nat)
    (hv : validWSB w = true) : loadData (.parsed w) c = .ok w := by
  simp only [validWSB, Bool.and_eq_true] at hv
  obtain ⟨hnd, hrest⟩ := hv
  cases hl : w.getLast? with
  | none =>
    have hwnil : w = [] := List.getLast?_eq_none_iff.mp hl
    subst hwnil
    simp [splitLastMeta] at hrest
  | some last =>
    have hw : w.dropLast ++ [last] = w := List.dropLast_append_getLast? last hl
    simp only [splitLastMeta, hl] at hrest
    by_cases hm : (last.1 == "_meta") = true
    · rw [if_pos hm] at hrest
      simp only [Bool.and_eq_true] at hrest
      obtain ⟨⟨hpne, hall⟩, hmok⟩ := hrest
      have hm2 : last.1 = "_meta" := by simpa using hm
      cases hv2 : last.2 with
      | jobj mkvs =>
        have hlast : last = ("_meta", JVal.jobj mkvs) := by
          rw [← hm2, ← hv2]
        have hmk : mkvs ≠ [] := by
          rw [hv2] at hmok
          simp only [metaOkB] at hmok
          intro he
          rw [he] at hmok
          cases hmok
        have hne : w.dropLast ≠ [] := by
          intro he
          rw [he] at hpne
          cases hpne
        have hnd2 : keysNodupB w.dropLast = true := by
          apply keysNodupB_append_left w.dropLast [last]
          rw [hw]
          exact hnd
        rw [← hw, hlast]
        exact loadData_valid_meta w.dropLast mkvs c hne hnd2 hall hmk
      | jnull => rw [hv2] at hmok; cases hmok
      | jbool b => rw [hv2] at hmok; cases hmok
      | jnum n => rw [hv2] at hmok; cases hmok
      | jstr s => rw [hv2] at hmok; cases hmok
      | jarr xs => rw [hv2] at hmok; cases hmok
    · rw [if_neg hm] at hrest
      simp only [Bool.and_eq_true, metaOkB, and_true] at hrest
      obtain ⟨hpne, hall⟩ := hrest
      have hne : w ≠ [] := by
        intro he
        rw [he] at hpne
        cases hpne
      exact loadData_valid_nometa w c hne hnd hall

/-- Witness for C4: a concrete valid workspace — one project with one
fully-specified task and a `_meta` entry — round-trips unchanged. -/
theorem C4_round_trip_load_save_witness :
    validWSB [("Work", JVal.jobj [("To Do", JVal.jarr [JVal.jobj [("id", JVal.jstr "ab12cd34"),
        ("title", JVal.jstr "X"), ("priority", JVal.jstr "High")]]),
        ("In Progress", JVal.jarr []), ("Done", JVal.jarr [])]),
      ("_meta", JVal.jobj [("last_project", JVal.jstr "Work")])] = true ∧
    loadData (.parsed [("Work", JVal.jobj [("To Do", JVal.jarr [JVal.jobj [("id", JVal.jstr "ab12cd34"),
        ("title", JVal.jstr "X"), ("priority", JVal.jstr "High")]]),
        ("In Progress", JVal.jarr []), ("Done", JVal.jarr [])]),
      ("_meta", JVal.jobj [("last_project", JVal.jstr "Work")])]) 0 =
      .ok [("Work", JVal.jobj [("To Do", JVal.jarr [JVal.jobj [("id", JVal.jstr "ab12cd34"),
        ("title", JVal.jstr "X"), ("priority", JVal.jstr "High")]]),
        ("In Progress", JVal.jarr []), ("Done", JVal.jarr [])]),
      ("_meta", JVal.jobj [("last_project", JVal.jstr "Work")])] :=
  ⟨rfl, C4_round_trip_load_save _ 0 rfl⟩

/-! ## Non-fixed column keys are dropped by a new-format load (C10) -/

theorem filterCols_keys (d : List (String × JVal)) :
    (filterCols d).map (fun kv => kv.1) = d.map (fun kv => kv.1) := by
  induction d with
  | nil => rfl
  | cons kv rest ih =>
    simp only [filterCols, List.map_cons] at ih ⊢
    by_cases h : (kv.1 == "_meta") = true
    · rw [if_pos h, ih]
    · rw [if_neg h, ih]

theorem aGet_filterCols (d : List (String × JVal)) (p : String) :
    aGet (filterCols d) p =
      if p == "_meta" then aGet d p else (aGet d p).map filterProjVal := by
  induction d with
  | nil => cases h : p == "_meta" <;> simp [filterCols, aGet, h]
  | cons kv rest ih =>
    simp only [filterCols, List.map_cons] at ih ⊢
    by_cases hk : (kv.1 == p) = true
    · have hk2 : kv.1 = p := by simpa using hk
      subst hk2
      by_cases hm : (kv.1 == "_meta") = true
      · rw [if_pos hm]
        simp [aGet, hm]
      · rw [if_neg hm]
        have hm2 : (kv.1 == "_meta") = false := by
          revert hm; cases kv.1 == "_meta" <;> simp
        simp [aGet, hm2]
    · have hk2 : (kv.1 == p) = false := by
        revert hk; cases kv.1 == p <;> simp
      by_cases hm : (kv.1 == "_meta") = true
      · rw [if_pos hm]
        simp only [aGet, hk2, Bool.false_eq_true, if_false]
        exact ih
      · rw [if_neg hm]
        simp only [aGet, hk2, Bool.false_eq_true, if_false]
        exact ih

theorem aDel_filterCols_meta (d : List (String × JVal)) :
    aDel (filterCols d) "_meta" = filterCols (aDel d "_meta") := by
  induction d with
  | nil => rfl
  | cons kv rest ih =>
    simp only [filterCols] at ih ⊢
    simp only [List.map_cons]
    by_cases hm : (kv.1 == "_meta") = true
    · rw [if_pos hm]
      simp only [aDel, hm, if_true]
    · rw [if_neg hm]
      have hm2 : (kv.1 == "_meta") = false := by
        revert hm; cases kv.1 == "_meta" <;> simp
      simp only [aDel, hm2, Bool.false_eq_true, if_false]
      simp only [List.map_cons]
      rw [if_neg hm]
      rw [ih]

theorem truthy_filterProjVal {v : JVal} (h : truthy v = false) :
    truthy (filterProjVal v) = false := by
  cases v with
  | jobj kvs =>
    simp only [truthy] at h
    have h2 : kvs.isEmpty = true := by
      revert h; cases kvs.isEmpty <;> simp
    have h3 : kvs = [] := List.isEmpty_iff.mp h2
    subst h3
    rfl
  | jnull => exact h
  | jbool b => exact h
  | jnum n => exact h
  | jstr s => exact h
  | jarr xs => exact h

theorem hasFirstColB_filterProjVal {v : JVal} (h : hasFirstColB v = true) :
    hasFirstColB (filterProjVal v) = true := by
  cases v with
  | jobj kvs =>
    simp only [hasFirstColB, filterProjVal] at h ⊢
    obtain ⟨e, he, hb⟩ := List.any_eq_true.mp h
    apply List.any_eq_true.mpr
    refine ⟨e, ?_, hb⟩
    apply List.mem_filter.mpr
    refine ⟨he, ?_⟩
    have he2 : e.1 = "To Do" := by simpa [DEFAULT_COLUMNS] using hb
    rw [he2]
    decide
  | jnull => exact h
  | jbool b => exact h
  | jnum n => exact h
  | jstr s => exact h
  | jarr xs => exact h

theorem looksNewFormat_filterCols {d : List (String × JVal)}
    (h : looksNewFormat d = true) : looksNewFormat (filterCols d) = true := by
  apply List.all_eq_true.mpr
  intro e he
  obtain ⟨kv, hkv, hf⟩ := List.mem_map.mp he
  have hk := List.all_eq_true.mp h kv hkv
  by_cases hm : (kv.1 == "_meta") = true
  · rw [if_pos hm] at hf
    rw [← hf]
    exact hk
  · rw [if_neg hm] at hf
    rw [← hf]
    simp only
    rcases Bool.or_eq_true_iff.mp hk with hk1 | hk2
    · apply Bool.or_eq_true_iff.mpr
      left
      have ht : truthy kv.2 = false := by
        revert hk1; cases truthy kv.2 <;> simp
      rw [truthy_filterProjVal ht]
      rfl
    · apply Bool.or_eq_true_iff.mpr
      right
      exact hasFirstColB_filterProjVal hk2

theorem aGet_filter_fixed (kvs2 : List (String × JVal)) (col : String)
    (hcol : DEFAULT_COLUMNS.contains col = true) :
    aGet (kvs2.filter (fun kv => DEFAULT_COLUMNS.contains kv.1)) col = aGet kvs2 col := by
  induction kvs2 with
  | nil => rfl
  | cons e rest ih =>
    by_cases he : (e.1 == col) = true
    · have he2 : e.1 = col := by simpa using he
      rw [List.filter_cons]
      rw [he2, hcol]
      simp only [if_true, aGet]
      rw [he2]
      simp [aGet]
    · have he2 : (e.1 == col) = false := by
        revert he; cases e.1 == col <;> simp
      rw [List.filter_cons]
      by_cases hk : (DEFAULT_COLUMNS.contains e.1) = true
      · rw [hk]
        simp only [if_true, aGet, he2, Bool.false_eq_true, if_false]
        exact ih
      · have hk2 : (DEFAULT_COLUMNS.contains e.1) = false := by
          revert hk; cases DEFAULT_COLUMNS.contains e.1 <;> simp
        rw [hk2]
        simp only [Bool.false_eq_true, if_false, aGet, he2]
        rw [ih]

theorem pyDictGet_filterProjVal (v : JVal) (col : String)
    (hcol : DEFAULT_COLUMNS.contains col = true) :
    pyDictGet (filterProjVal v) col (.jarr []) = pyDictGet v col (.jarr []) := by
  cases v with
  | jobj kvs2 =>
    simp only [filterProjVal, pyDictGet]
    rw [aGet_filter_fixed kvs2 col hcol]
  | jnull => rfl
  | jbool b => rfl
  | jnum n => rfl
  | jstr s => rfl
  | jarr xs => rfl

theorem normCols_filterProjVal : ∀ (cols : List String),
    (∀ col ∈ cols, DEFAULT_COLUMNS.contains col = true) →
    ∀ (c : Nat) (v : JVal),
    normCols cols c (filterProjVal v) = normCols cols c v := by
  intro cols
  induction cols with
  | nil => intro _ c v; rfl
  | cons col rest ih =>
    intro hcols c v
    have hcol : DEFAULT_COLUMNS.contains col = true := hcols col (List.mem_cons_self _ _)
    simp only [normCols, pyDictGet_filterProjVal v col hcol]
    cases h1 : pyDictGet v col (.jarr []) with
    | error e => rfl
    | ok tv =>
      simp only
      cases h2 : pyIterTasks tv with
      | error e => rfl
      | ok ts =>
        simp only
        rw [ih (fun c2 hc2 => hcols c2 (List.mem_cons_of_mem _ hc2))]

theorem normalizeProject_filterProjVal (c : Nat) (v : JVal) :
    normalizeProject c (filterProjVal v) = normalizeProject c v := by
  simp only [normalizeProject]
  apply normCols_filterProjVal
  intro col hc
  simp only [DEFAULT_COLUMNS, List.mem_cons, List.not_mem_nil, or_false] at hc
  rcases hc with rfl | rfl | rfl <;> decide

theorem buildFinal_filterCols : ∀ (pk : List String) (d : List (String × JVal)) (c : Nat),
    buildFinal (filterCols d) pk c = buildFinal d pk c := by
  intro pk
  induction pk with
  | nil => intro d c; rfl
  | cons p rest ih =>
    intro d c
    simp only [buildFinal, aGet_filterCols d p]
    by_cases hm : (p == "_meta") = true
    · rw [if_pos hm]
      cases h1 : normalizeProject c ((aGet d p).getD (.jobj [])) with
      | error e => rfl
      | ok pr =>
        obtain ⟨cols, c1⟩ := pr
        simp only
        rw [ih]
    · rw [if_neg hm]
      have hget : ((aGet d p).map filterProjVal).getD (.jobj []) =
          filterProjVal ((aGet d p).getD (.jobj [])) := by
        cases aGet d p <;> rfl
      rw [hget, normalizeProject_filterProjVal]
      cases h1 : normalizeProject c ((aGet d p).getD (.jobj [])) with
      | error e => rfl
      | ok pr =>
        obtain ⟨cols, c1⟩ := pr
        simp only
        rw [ih]

theorem loadAssemble_filterCols (d : List (String × JVal)) (md : JVal) (c : Nat) :
    loadAssemble (filterCols d) md c = loadAssemble d md c := by
  simp only [loadAssemble, filterCols_keys d]
  by_cases hke : ((d.map fun kv => kv.1).isEmpty) = true
  · have hd : d = [] := by
      have := List.isEmpty_iff.mp hke
      cases d with
      | nil => rfl
      | cons kv rest => simp at this
    subst hd
    rfl
  · have hke2 : ((d.map fun kv => kv.1).isEmpty) = false := by
      revert hke; cases (d.map fun kv => kv.1).isEmpty <;> simp
    rw [hke2]
    simp only [Bool.false_eq_true, if_false]
    rw [buildFinal_filterCols]

/-- C10 (confirmed): on a new-format document, `load_data` is
insensitive to the non-fixed column keys of every project value —
loading the document equals loading the document with every non-fixed
project key removed, and every loaded project contains exactly the
three fixed columns, so no task stored under a non-fixed key survives
the load. -/
theorem C10_nonfixed_columns_dropped (kvs : List (String × JVal)) (c : Nat)
    (h : looksNewFormat (aDel kvs "_meta") = true) :
    loadData (.parsed kvs) c = loadData (.parsed (filterCols kvs)) c ∧
    (∀ res, loadData (.parsed kvs) c = .ok res → wsNormalizedB res = true) := by
  refine ⟨?_, fun res hres => loadData_normalized _ c res hres⟩
  by_cases hk : kvs = []
  · subst hk; rfl
  · have hk2 : kvs.isEmpty = false := List.isEmpty_eq_false.mpr hk
    have hk3 : (filterCols kvs).isEmpty = false := by
      apply List.isEmpty_eq_false.mpr
      intro he
      apply hk
      cases hkv : kvs with
      | nil => rfl
      | cons a b => rw [hkv] at he; simp [filterCols] at he
    simp only [loadData, hk2, hk3, Bool.false_eq_true, if_false]
    rw [aGet_filterCols kvs "_meta"]
    simp only [beq_self_eq_true, if_true]
    rw [aDel_filterCols_meta kvs]
    rw [h, looksNewFormat_filterCols h]
    simp only [if_true]
    exact (loadAssemble_filterCols (aDel kvs "_meta") _ c).symm

/-- Witness for C10: a project with a non-fixed key "Trash" loads
identically with and without that key, and the trash task is gone from
the result. -/
theorem C10_nonfixed_columns_dropped_witness :
    looksNewFormat (aDel [("P", JVal.jobj [("To Do",
        JVal.jarr [JVal.jobj [("id", JVal.jstr "t1"), ("priority", JVal.jstr "Mid")]]),
        ("Trash", JVal.jarr [JVal.jobj [("id", JVal.jstr "zz"),
          ("priority", JVal.jstr "Low")]])])] "_meta") = true ∧
    loadData (.parsed [("P", JVal.jobj [("To Do",
        JVal.jarr [JVal.jobj [("id", JVal.jstr "t1"), ("priority", JVal.jstr "Mid")]]),
        ("Trash", JVal.jarr [JVal.jobj [("id", JVal.jstr "zz"),
          ("priority", JVal.jstr "Low")]])])]) 0 =
      loadData (.parsed (filterCols [("P", JVal.jobj [("To Do",
        JVal.jarr [JVal.jobj [("id", JVal.jstr "t1"), ("priority", JVal.jstr "Mid")]]),
        ("Trash", JVal.jarr [JVal.jobj [("id", JVal.jstr "zz"),
          ("priority", JVal.jstr "Low")]])])])) 0 ∧
    loadData (.parsed [("P", JVal.jobj [("To Do",
        JVal.jarr [JVal.jobj [("id", JVal.jstr "t1"), ("priority", JVal.jstr "Mid")]]),
        ("Trash", JVal.jarr [JVal.jobj [("id", JVal.jstr "zz"),
          ("priority", JVal.jstr "Low")]])])]) 0 =
      .ok [("P", JVal.jobj [("To Do",
        JVal.jarr [JVal.jobj [("id", JVal.jstr "t1"), ("priority", JVal.jstr "Mid")]]),
        ("In Progress", JVal.jarr []), ("Done", JVal.jarr [])])] :=
  ⟨rfl,
   (C10_nonfixed_columns_dropped [("P", JVal.jobj [("To Do",
        JVal.jarr [JVal.jobj [("id", JVal.jstr "t1"), ("priority", JVal.jstr "Mid")]]),
        ("Trash", JVal.jarr [JVal.jobj [("id", JVal.jstr "zz"),
          ("priority", JVal.jstr "Low")]])])] 0 rfl).1,
   rfl⟩

/-! ## Legacy migration (C6) -/

theorem aGet_none_of_absent {α : Type} {d : List (String × α)} {k : String}
    (h : (d.any fun kv => kv.1 == k) = false) : aGet d k = none := by
  induction d with
  | nil => rfl
  | cons kv rest ih =>
    simp only [List.any_cons, Bool.or_eq_false_iff] at h
    obtain ⟨h1, h2⟩ := h
    simp only [aGet, h1, Bool.false_eq_true, if_false]
    exact ih h2

theorem aDel_of_absent {α : Type} {d : List (String × α)} {k : String}
    (h : (d.any fun kv => kv.1 == k) = false) : aDel d k = d := by
  induction d with
  | nil => rfl
  | cons kv rest ih =>
    simp only [List.any_cons, Bool.or_eq_false_iff] at h
    obtain ⟨h1, h2⟩ := h
    simp only [aDel, h1, Bool.false_eq_true, if_false]
    rw [ih h2]

theorem contains_cols (k : String) :
    DEFAULT_COLUMNS.contains k =
      ((k == "To Do") || ((k == "In Progress") || (k == "Done"))) := by
  cases h1 : k == "To Do" <;> cases h2 : k == "In Progress" <;> cases h3 : k == "Done" <;>
    simp [DEFAULT_COLUMNS, List.contains, List.elem, h1, h2, h3]

theorem appendsAll_cons_fixed {k : String} {v : JVal} {rest : List (String × JVal)}
    (h : DEFAULT_COLUMNS.contains k = true) :
    appendsAll ((k, v) :: rest) = appendsAll rest := by
  have h2 : k ∈ DEFAULT_COLUMNS := by simpa using h
  simp [appendsAll, List.filter_cons, h2]

theorem appendsAll_cons_arr {k : String} {xs : List JVal} {rest : List (String × JVal)}
    (h : DEFAULT_COLUMNS.contains k = false) :
    appendsAll ((k, JVal.jarr xs) :: rest) =
      xs.filter isJObjB ++ appendsAll rest := by
  have h2 : k ∉ DEFAULT_COLUMNS := by simpa using h
  simp [appendsAll, List.filter_cons, h2, isArrB, asArrD]

theorem appendsAll_cons_other {k : String} {v : JVal} {rest : List (String × JVal)}
    (h : isArrB v = false) :
    appendsAll ((k, v) :: rest) = appendsAll rest := by
  simp [appendsAll, List.filter_cons, h]

theorem migrateGo_cons_fixed {k : String} {v : JVal} {acc rest : List (String × JVal)}
    (h : DEFAULT_COLUMNS.contains k = true) :
    migrateGo acc ((k, v) :: rest) = migrateGo (aSet acc k v) rest := by
  have h2 : k ∈ DEFAULT_COLUMNS := by simpa using h
  simp [migrateGo, h2]

theorem migrateGo_cons_arr {k : String} {xs : List JVal} {acc rest : List (String × JVal)}
    {ys : List JVal}
    (h : DEFAULT_COLUMNS.contains k = false)
    (hys : aGet acc (DEFAULT_COLUMNS.getD 0 "") = some (.jarr ys)) :
    migrateGo acc ((k, JVal.jarr xs) :: rest) =
      migrateGo (aSet acc (DEFAULT_COLUMNS.getD 0 "")
        (.jarr (ys ++ xs.filter isJObjB))) rest := by
  have h2 : k ∉ DEFAULT_COLUMNS := by simpa using h
  have hys2 : aGet acc ((DEFAULT_COLUMNS[0]?).getD "") = some (JVal.jarr ys) := hys
  simp [migrateGo, h2, hys2]

theorem migrateGo_cons_skip {k : String} {v : JVal} {acc rest : List (String × JVal)}
    (h : DEFAULT_COLUMNS.contains k = false) (hv : isArrB v = false) :
    migrateGo acc ((k, v) :: rest) = migrateGo acc rest := by
  have h2 : k ∉ DEFAULT_COLUMNS := by simpa using h
  cases v with
  | jarr xs => simp [isArrB] at hv
  | jnull => simp [migrateGo, h2]
  | jbool b => simp [migrateGo, h2]
  | jnum n => simp [migrateGo, h2]
  | jstr s => simp [migrateGo, h2]
  | jobj kvs => simp [migrateGo, h2]

/-- Migration over entries that never re-assign "To Do": the first
column accumulates all dict-shaped appends, the other two columns take
their (unique) assigned list if any. -/
theorem migrateGo_noToDo : ∀ (L : List (String × JVal)) (t i d : List JVal),
    colsAreListsB L = true → keysNodupB L = true →
    (L.any fun kv => kv.1 == "To Do") = false →
    migrateGo [("To Do", .jarr t), ("In Progress", .jarr i), ("Done", .jarr d)] L =
      .ok [("To Do", .jarr (t ++ appendsAll L)),
           ("In Progress", .jarr (((aGet L "In Progress").map asArrD).getD i)),
           ("Done", .jarr (((aGet L "Done").map asArrD).getD d))] := by
  intro L
  induction L with
  | nil =>
    intro t i d _ _ _
    simp [migrateGo, appendsAll, aGet]
  | cons kv rest ih =>
    intro t i d hlists hnd hTD
    obtain ⟨k, v⟩ := kv
    simp only [List.any_cons, Bool.or_eq_false_iff] at hTD
    obtain ⟨hkT, hTDrest⟩ := hTD
    simp only [colsAreListsB, List.all_cons, Bool.and_eq_true] at hlists
    obtain ⟨hheadlist, hrestlists⟩ := hlists
    have hrest2 : colsAreListsB rest = true := hrestlists
    simp only [keysNodupB, Bool.and_eq_true] at hnd
    obtain ⟨hndhead, hndrest⟩ := hnd
    cases hIP : k == "In Progress" with
    | true =>
      have hk2 : k = "In Progress" := by simpa using hIP
      subst hk2
      have hvarr : isArrB v = true := by
        have hc : DEFAULT_COLUMNS.contains "In Progress" = true := by decide
        rw [hc] at hheadlist
        simpa using hheadlist
      cases v with
      | jarr vs =>
        rw [migrateGo_cons_fixed (by decide)]
        have hset : aSet [("To Do", JVal.jarr t), ("In Progress", JVal.jarr i),
            ("Done", JVal.jarr d)] "In Progress" (JVal.jarr vs) =
            [("To Do", JVal.jarr t), ("In Progress", JVal.jarr vs),
             ("Done", JVal.jarr d)] := rfl
        rw [hset, ih t vs d hrest2 hndrest hTDrest]
        have hip : aGet rest "In Progress" = none := by
          apply aGet_none_of_absent
          simpa using hndhead
        rw [appendsAll_cons_fixed (by decide)]
        simp [aGet, hip, asArrD]
      | jnull => simp [isArrB] at hvarr
      | jbool b => simp [isArrB] at hvarr
      | jnum n => simp [isArrB] at hvarr
      | jstr s => simp [isArrB] at hvarr
      | jobj kvs2 => simp [isArrB] at hvarr
    | false =>
      cases hD : k == "Done" with
      | true =>
        have hk2 : k = "Done" := by simpa using hD
        subst hk2
        have hvarr : isArrB v = true := by
          have hc : DEFAULT_COLUMNS.contains "Done" = true := by decide
          rw [hc] at hheadlist
          simpa using hheadlist
        cases v with
        | jarr vs =>
          rw [migrateGo_cons_fixed (by decide)]
          have hset : aSet [("To Do", JVal.jarr t), ("In Progress", JVal.jarr i),
              ("Done", JVal.jarr d)] "Done" (JVal.jarr vs) =
              [("To Do", JVal.jarr t), ("In Progress", JVal.jarr i),
               ("Done", JVal.jarr vs)] := rfl
          rw [hset, ih t i vs hrest2 hndrest hTDrest]
          have hdn : aGet rest "Done" = none := by
            apply aGet_none_of_absent
            simpa using hndhead
          rw [appendsAll_cons_fixed (by decide)]
          simp [aGet, hdn, asArrD]
        | jnull => simp [isArrB] at hvarr
        | jbool b => simp [isArrB] at hvarr
        | jnum n => simp [isArrB] at hvarr
        | jstr s => simp [isArrB] at hvarr
        | jobj kvs2 => simp [isArrB] at hvarr
      | false =>
        have hcf : DEFAULT_COLUMNS.contains k = false := by
          rw [contains_cols, hkT, hIP, hD]
          rfl
        cases v with
        | jarr xs =>
          rw [migrateGo_cons_arr hcf
            (show aGet [("To Do", JVal.jarr t), ("In Progress", JVal.jarr i),
                ("Done", JVal.jarr d)] (DEFAULT_COLUMNS.getD 0 "") =
              some (JVal.jarr t) from rfl)]
          have hset : aSet [("To Do", JVal.jarr t), ("In Progress", JVal.jarr i),
              ("Done", JVal.jarr d)] (DEFAULT_COLUMNS.getD 0 "")
              (.jarr (t ++ xs.filter isJObjB)) =
              [("To Do", JVal.jarr (t ++ xs.filter isJObjB)),
               ("In Progress", JVal.jarr i), ("Done", JVal.jarr d)] := rfl
          rw [hset, ih (t ++ xs.filter isJObjB) i d hrest2 hndrest hTDrest]
          rw [appendsAll_cons_arr hcf]
          simp [aGet, hIP, hD, List.append_assoc]
        | jnull =>
          rw [migrateGo_cons_skip hcf (by simp [isArrB])]
          rw [ih t i d hrest2 hndrest hTDrest]
          rw [appendsAll_cons_other (by simp [isArrB])]
          simp [aGet, hIP, hD]
        | jbool b =>
          rw [migrateGo_cons_skip hcf (by simp [isArrB])]
          rw [ih t i d hrest2 hndrest hTDrest]
          rw [appendsAll_cons_other (by simp [isArrB])]
          simp [aGet, hIP, hD]
        | jnum n =>
          rw [migrateGo_cons_skip hcf (by simp [isArrB])]
          rw [ih t i d hrest2 hndrest hTDrest]
          rw [appendsAll_cons_other (by simp [isArrB])]
          simp [aGet, hIP, hD]
        | jstr s =>
          rw [migrateGo_cons_skip hcf (by simp [isArrB])]
          rw [ih t i d hrest2 hndrest hTDrest]
          rw [appendsAll_cons_other (by simp [isArrB])]
          simp [aGet, hIP, hD]
        | jobj kvs2 =>
          rw [migrateGo_cons_skip hcf (by simp [isArrB])]
          rw [ih t i d hrest2 hndrest hTDrest]
          rw [appendsAll_cons_other (by simp [isArrB])]
          simp [aGet, hIP, hD]

theorem toDoFirstB_cons {k : String} {v : JVal} {rest : List (String × JVal)}
    (hk : (k == "To Do") = false)
    (h : toDoFirstB ((k, v) :: rest) = true) :
    toDoFirstB rest = true ∧
      ((DEFAULT_COLUMNS.contains k || !isArrB v) = true ∨
       ((((k, v) :: rest).any fun kv => kv.1 == "To Do") = false)) := by
  simp only [toDoFirstB] at h ⊢
  rcases Bool.or_eq_true_iff.mp h with h1 | h2
  · simp only [List.takeWhile_cons] at h1
    rw [show ((k, v).1 != "To Do") = true from by simp [bne, hk]] at h1
    simp only [if_true, List.all_cons, Bool.and_eq_true] at h1
    obtain ⟨hhead, htail⟩ := h1
    refine ⟨Bool.or_eq_true_iff.mpr (Or.inl htail), Or.inl hhead⟩
  · have h3 : (((k, v) :: rest).any fun kv => kv.1 == "To Do") = false := by
      revert h2
      cases ((k, v) :: rest).any fun kv => kv.1 == "To Do" <;> simp
    have h4 : (rest.any fun kv => kv.1 == "To Do") = false := by
      simp only [List.any_cons, Bool.or_eq_false_iff] at h3
      exact h3.2
    refine ⟨Bool.or_eq_true_iff.mpr (Or.inr (by simp [h4])), Or.inr h3⟩

/-- Migration of a whole legacy document in which the `"To Do"` key
(when present) precedes every appending entry: the first column is the
`"To Do"` list followed by all dict-shaped entries of non-fixed list
values, in original order; the other two columns take their assigned
lists. -/
theorem migrate_legacy_cols : ∀ (L : List (String × JVal)) (i d : List JVal),
    colsAreListsB L = true → keysNodupB L = true → toDoFirstB L = true →
    migrateGo [("To Do", .jarr []), ("In Progress", .jarr i), ("Done", .jarr d)] L =
      .ok [("To Do", .jarr (asArrD ((aGet L "To Do").getD (.jarr [])) ++ appendsAll L)),
           ("In Progress", .jarr (((aGet L "In Progress").map asArrD).getD i)),
           ("Done", .jarr (((aGet L "Done").map asArrD).getD d))] := by
  intro L
  induction L with
  | nil =>
    intro i d _ _ _
    simp [migrateGo, appendsAll, aGet, asArrD]
  | cons kv rest ih =>
    intro i d hlists hnd hfirst
    obtain ⟨k, v⟩ := kv
    have hlists2 := hlists
    have hnd2 := hnd
    simp only [colsAreListsB, List.all_cons, Bool.and_eq_true] at hlists2
    obtain ⟨hheadlist, hrestlists⟩ := hlists2
    have hrest2 : colsAreListsB rest = true := hrestlists
    simp only [keysNodupB, Bool.and_eq_true] at hnd2
    obtain ⟨hndhead, hndrest⟩ := hnd2
    cases hkT : k == "To Do" with
    | true =>
      have hk2 : k = "To Do" := by simpa using hkT
      subst hk2
      have hvarr : isArrB v = true := by
        have hc : DEFAULT_COLUMNS.contains "To Do" = true := by decide
        rw [hc] at hheadlist
        simpa using hheadlist
      cases v with
      | jarr ts =>
        rw [migrateGo_cons_fixed (by decide)]
        have hset : aSet [("To Do", JVal.jarr []), ("In Progress", JVal.jarr i),
            ("Done", JVal.jarr d)] "To Do" (JVal.jarr ts) =
            [("To Do", JVal.jarr ts), ("In Progress", JVal.jarr i),
             ("Done", JVal.jarr d)] := rfl
        have hTDrest : (rest.any fun kv => kv.1 == "To Do") = false := by
          simpa using hndhead
        rw [hset, migrateGo_noToDo rest ts i d hrest2 hndrest hTDrest]
        rw [appendsAll_cons_fixed (by decide)]
        simp [aGet, asArrD]
      | jnull => simp [isArrB] at hvarr
      | jbool b => simp [isArrB] at hvarr
      | jnum n => simp [isArrB] at hvarr
      | jstr s => simp [isArrB] at hvarr
      | jobj kvs2 => simp [isArrB] at hvarr
    | false =>
      obtain ⟨hfrest, hcase⟩ := toDoFirstB_cons hkT hfirst
      rcases hcase with hPcase | hnoT
      · cases hc : DEFAULT_COLUMNS.contains k with
        | true =>
          have hvarr : isArrB v = true := by
            rw [hc] at hheadlist
            simpa using hheadlist
          have hIPD : (k == "In Progress") = true ∨ (k == "Done") = true := by
            rw [contains_cols, hkT] at hc
            simp only [Bool.false_or] at hc
            exact Bool.or_eq_true_iff.mp hc
          cases v with
          | jarr vs =>
            rcases hIPD with hIP | hD
            · have hk2 : k = "In Progress" := by simpa using hIP
              subst hk2
              rw [migrateGo_cons_fixed (by decide)]
              have hset : aSet [("To Do", JVal.jarr []), ("In Progress", JVal.jarr i),
                  ("Done", JVal.jarr d)] "In Progress" (JVal.jarr vs) =
                  [("To Do", JVal.jarr []), ("In Progress", JVal.jarr vs),
                   ("Done", JVal.jarr d)] := rfl
              rw [hset, ih vs d hrest2 hndrest hfrest]
              have hip : aGet rest "In Progress" = none := by
                apply aGet_none_of_absent
                simpa using hndhead
              rw [appendsAll_cons_fixed (by decide)]
              simp [aGet, hip, asArrD]
            · have hk2 : k = "Done" := by simpa using hD
              subst hk2
              rw [migrateGo_cons_fixed (by decide)]
              have hset : aSet [("To Do", JVal.jarr []), ("In Progress", JVal.jarr i),
                  ("Done", JVal.jarr d)] "Done" (JVal.jarr vs) =
                  [("To Do", JVal.jarr []), ("In Progress", JVal.jarr i),
                   ("Done", JVal.jarr vs)] := rfl
              rw [hset, ih i vs hrest2 hndrest hfrest]
              have hdn : aGet rest "Done" = none := by
                apply aGet_none_of_absent
                simpa using hndhead
              rw [appendsAll_cons_fixed (by decide)]
              simp [aGet, hdn, asArrD]
          | jnull => simp [isArrB] at hvarr
          | jbool b => simp [isArrB] at hvarr
          | jnum n => simp [isArrB] at hvarr
          | jstr s => simp [isArrB] at hvarr
          | jobj kvs2 => simp [isArrB] at hvarr
        | false =>
          have hvnotarr : isArrB v = false := by
            rw [hc] at hPcase
            simp only [Bool.false_or] at hPcase
            revert hPcase
            cases isArrB v <;> simp
          have hIP : (k == "In Progress") = false := by
            rw [contains_cols, hkT] at hc
            simp only [Bool.false_or, Bool.or_eq_false_iff] at hc
            exact hc.1
          have hD : (k == "Done") = false := by
            rw [contains_cols, hkT] at hc
            simp only [Bool.false_or, Bool.or_eq_false_iff] at hc
            exact hc.2
          rw [migrateGo_cons_skip hc hvnotarr]
          rw [ih i d hrest2 hndrest hfrest]
          rw [appendsAll_cons_other hvnotarr]
          simp [aGet, hkT, hIP, hD]
      · rw [migrateGo_noToDo ((k, v) :: rest) [] i d hlists hnd hnoT]
        rw [aGet_none_of_absent hnoT]
        simp [asArrD]

theorem normalizeProject_three (A B C : List JVal) (c : Nat) :
    normalizeProject c (JVal.jobj [("To Do", .jarr A), ("In Progress", .jarr B),
        ("Done", .jarr C)]) =
      .ok ([("To Do", JVal.jarr (normTasks c A).1),
            ("In Progress", JVal.jarr (normTasks (normTasks c A).2 B).1),
            ("Done", JVal.jarr (normTasks (normTasks (normTasks c A).2 B).2 C).1)],
           (normTasks (normTasks (normTasks c A).2 B).2 C).2) := by
  simp [normalizeProject, DEFAULT_COLUMNS, normCols, pyDictGet, aGet, pyIterTasks]

theorem loadAssemble_single (A B C : List JVal) (c : Nat) :
    loadAssemble [(DEFAULT_PROJECT_NAME, JVal.jobj
        [("To Do", .jarr A), ("In Progress", .jarr B), ("Done", .jarr C)])] (.jobj []) c =
      .ok [(DEFAULT_PROJECT_NAME, JVal.jobj
        [("To Do", JVal.jarr (normTasks c A).1),
         ("In Progress", JVal.jarr (normTasks (normTasks c A).2 B).1),
         ("Done", JVal.jarr (normTasks (normTasks (normTasks c A).2 B).2 C).1)])] := by
  simp only [loadAssemble, List.map_cons, List.map_nil, List.isEmpty_cons,
    Bool.false_eq_true, if_false, buildFinal]
  rw [show aGet [(DEFAULT_PROJECT_NAME, JVal.jobj [("To Do", JVal.jarr A),
      ("In Progress", JVal.jarr B), ("Done", JVal.jarr C)])] DEFAULT_PROJECT_NAME =
    some (JVal.jobj [("To Do", JVal.jarr A), ("In Progress", JVal.jarr B),
      ("Done", JVal.jarr C)]) from rfl]
  simp only [Option.getD_some]
  rw [normalizeProject_three]
  simp [truthy, DEFAULT_PROJECT_NAME]

/-- C6 (corrected): loading a legacy document with pairwise-distinct
keys, no `_meta`, fixed-column keys mapping to lists, and — the
amendment the counterexample forces — the `"To Do"` key (when present)
preceding every list-valued non-fixed key, yields exactly one project,
the default project: each fixed column name contributes its value as
that column's task list, the dict-shaped entries of the non-fixed
list-valued keys are appended to "To Do" in original order, and
normalization then assigns missing ids and priorities.  (Without the
ordering condition a later `"To Do"` key overwrites the already-appended
entries — the dict assignment `migrated_data[...][col] = tasks_list`
discards them; see the counterexample.) -/
theorem C6_legacy_migration_determinism (kvs : List (String × JVal)) (c : Nat)
    (hnd : keysNodupB kvs = true)
    (hnm : (kvs.any fun kv => kv.1 == "_meta") = false)
    (hlegacy : looksNewFormat kvs = false)
    (hlists : colsAreListsB kvs = true)
    (hfirst : toDoFirstB kvs = true) :
    loadData (.parsed kvs) c =
      .ok [(DEFAULT_PROJECT_NAME, JVal.jobj
        [("To Do", JVal.jarr
           (normTasks c (asArrD ((aGet kvs "To Do").getD (.jarr [])) ++ appendsAll kvs)).1),
         ("In Progress", JVal.jarr
           (normTasks
             (normTasks c (asArrD ((aGet kvs "To Do").getD (.jarr [])) ++ appendsAll kvs)).2
             (((aGet kvs "In Progress").map asArrD).getD [])).1),
         ("Done", JVal.jarr
           (normTasks
             (normTasks
               (normTasks c (asArrD ((aGet kvs "To Do").getD (.jarr [])) ++ appendsAll kvs)).2
               (((aGet kvs "In Progress").map asArrD).getD [])).2
             (((aGet kvs "Done").map asArrD).getD [])).1)])] := by
  have hne : kvs ≠ [] := by
    intro he
    rw [he] at hlegacy
    simp [looksNewFormat] at hlegacy
  have hemp : kvs.isEmpty = false := List.isEmpty_eq_false.mpr hne
  have hmeta : aGet kvs "_meta" = none := aGet_none_of_absent hnm
  have hdel : aDel kvs "_meta" = kvs := aDel_of_absent hnm
  have hmig : migrate kvs =
      .ok [("To Do", .jarr (asArrD ((aGet kvs "To Do").getD (.jarr [])) ++ appendsAll kvs)),
           ("In Progress", .jarr (((aGet kvs "In Progress").map asArrD).getD [])),
           ("Done", .jarr (((aGet kvs "Done").map asArrD).getD []))] :=
    migrate_legacy_cols kvs [] [] hlists hnd hfirst
  simp only [loadData, hemp, Bool.false_eq_true, if_false, hmeta, Option.getD_none, hdel,
    hlegacy, hmig, Except.map]
  exact loadAssemble_single _ _ _ c

/-- Witness for C6: the legacy document with the three fixed columns,
one "To Do" task lacking id and priority, satisfies every hypothesis,
and loading yields the single default project with the task normalized. -/
theorem C6_legacy_migration_determinism_witness :
    keysNodupB [("To Do", JVal.jarr [JVal.jobj [("title", JVal.jstr "X")]]),
      ("In Progress", JVal.jarr []), ("Done", JVal.jarr [])] = true ∧
    ([("To Do", JVal.jarr [JVal.jobj [("title", JVal.jstr "X")]]),
      ("In Progress", JVal.jarr []), ("Done", JVal.jarr [])].any
        fun kv => kv.1 == "_meta") = false ∧
    looksNewFormat [("To Do", JVal.jarr [JVal.jobj [("title", JVal.jstr "X")]]),
      ("In Progress", JVal.jarr []), ("Done", JVal.jarr [])] = false ∧
    colsAreListsB [("To Do", JVal.jarr [JVal.jobj [("title", JVal.jstr "X")]]),
      ("In Progress", JVal.jarr []), ("Done", JVal.jarr [])] = true ∧
    toDoFirstB [("To Do", JVal.jarr [JVal.jobj [("title", JVal.jstr "X")]]),
      ("In Progress", JVal.jarr []), ("Done", JVal.jarr [])] = true ∧
    loadData (.parsed [("To Do", JVal.jarr [JVal.jobj [("title", JVal.jstr "X")]]),
      ("In Progress", JVal.jarr []), ("Done", JVal.jarr [])]) 0 =
      .ok [(DEFAULT_PROJECT_NAME, JVal.jobj
        [("To Do", JVal.jarr [JVal.jobj [("title", JVal.jstr "X"),
           ("id", JVal.jstr (generate_id 0)), ("priority", JVal.jstr "Mid")]]),
         ("In Progress", JVal.jarr []), ("Done", JVal.jarr [])])] :=
  ⟨rfl, rfl, rfl, rfl, rfl,
    (C6_legacy_migration_determinism
      [("To Do", JVal.jarr [JVal.jobj [("title", JVal.jstr "X")]]),
       ("In Progress", JVal.jarr []), ("Done", JVal.jarr [])]
      0 rfl rfl rfl rfl rfl).trans rfl⟩

/-- Counterexample to C6 as stated: when a list-valued non-fixed key
precedes the "To Do" key, `migrated_data[DEFAULT_COLUMNS[0]][...]` first
accumulates its dict entries, and the later iteration over the "To Do"
key then assigns `migrated_data[...]["To Do"] = tasks_list`, discarding
them.  Here the entry under "Other" is appendable (second conjunct), yet
the loaded workspace has every column empty, so the claim's "tasks under
non-fixed keys are appended to the To Do column" fails. -/
theorem C6_overwrite_counterexample :
    loadData (.parsed [("Other", JVal.jarr [JVal.jobj [("a", JVal.jnum 1)]]),
      ("To Do", JVal.jarr [])]) 0 =
      .ok [(DEFAULT_PROJECT_NAME, JVal.jobj
        [("To Do", JVal.jarr []), ("In Progress", JVal.jarr []),
         ("Done", JVal.jarr [])])] ∧
    appendsAll [("Other", JVal.jarr [JVal.jobj [("a", JVal.jnum 1)]]),
      ("To Do", JVal.jarr [])] = [JVal.jobj [("a", JVal.jnum 1)]] :=
  ⟨rfl, rfl⟩

/-- Counterexample to C4 as stated: a workspace that is valid except
that its `_meta` entry is the EMPTY object (distinct keys, one project
with exactly the three fixed columns) does not round-trip.  `load_data`
pops `_meta` and reattaches it only under `if meta_data:`; the empty
dict is falsy in Python, so the entry is dropped and the loaded
workspace differs from the saved one. -/
theorem C4_empty_meta_counterexample :
    keysNodupB [("Work", JVal.jobj [("To Do", JVal.jarr []),
        ("In Progress", JVal.jarr []), ("Done", JVal.jarr [])]),
      ("_meta", JVal.jobj [])] = true ∧
    validColsB (JVal.jobj [("To Do", JVal.jarr []),
        ("In Progress", JVal.jarr []), ("Done", JVal.jarr [])]) = true ∧
    loadData (.parsed [("Work", JVal.jobj [("To Do", JVal.jarr []),
        ("In Progress", JVal.jarr []), ("Done", JVal.jarr [])]),
      ("_meta", JVal.jobj [])]) 0 =
      .ok [("Work", JVal.jobj [("To Do", JVal.jarr []),
        ("In Progress", JVal.jarr []), ("Done", JVal.jarr [])])] ∧
    loadData (.parsed [("Work", JVal.jobj [("To Do", JVal.jarr []),
        ("In Progress", JVal.jarr []), ("Done", JVal.jarr [])]),
      ("_meta", JVal.jobj [])]) 0 ≠
      .ok [("Work", JVal.jobj [("To Do", JVal.jarr []),
        ("In Progress", JVal.jarr []), ("Done", JVal.jarr [])]),
      ("_meta", JVal.jobj [])] := by
  refine ⟨rfl, rfl, rfl, ?_⟩
  intro h
  have h1 : (Except.ok [("Work", JVal.jobj [("To Do", JVal.jarr []),
        ("In Progress", JVal.jarr []), ("Done", JVal.jarr [])])] :
      Except Unit (List (String × JVal))) =
      .ok [("Work", JVal.jobj [("To Do", JVal.jarr []),
        ("In Progress", JVal.jarr []), ("Done", JVal.jarr [])]),
      ("_meta", JVal.jobj [])] :=
    (show loadData (.parsed [("Work", JVal.jobj [("To Do", JVal.jarr []),
        ("In Progress", JVal.jarr []), ("Done", JVal.jarr [])]),
      ("_meta", JVal.jobj [])]) 0 =
      .ok [("Work", JVal.jobj [("To Do", JVal.jarr []),
        ("In Progress", JVal.jarr []), ("Done", JVal.jarr [])])] from rfl).symm.trans h
  have h2 := congrArg (fun e => match e with
    | Except.ok l => l.length
    | Except.error _ => 0) h1
  simp at h2
